import Mathlib

/-!
# zfec_fs: the decoded-file reader and the encoded-size arithmetic

A shallow embedding of `src/c++/filedecoder.cpp` (`ReadMetadata`, `FileDecoder::Open`,
`FileDecoder::Read`, `FileDecoder::NormalizeIndices`, `FileDecoder::CopyToNthElement`), of
`EncodedFile::Size` from `src/c++/encodedfile.h` and of `src/c++/zfecfsencoder.cpp`
(`ZFecFSEncoder::Getattr`, `Readdir`, `Open`).

Conventions of the embedding.

* A byte (`char`) is a natural number; buffers and vectors are lists.
* `size_t` quantities and the offsets handed to `Read` are natural numbers, `off_t` sizes that
  the code subtracts from are integers.  Arithmetic is unbounded: every quantity is taken to
  stay below the width of its machine type.
* A `throw`, an access outside a vector and a division by zero end a run with a `Failure`.
* The two loops without a fixed trip count (`NormalizeIndices`, `CopyToNthElement`) take a fuel
  argument, one unit per evaluation of the loop condition, and end with `Failure.outOfFuel`
  when the fuel runs out before the loop condition becomes false.
-/

set_option autoImplicit false

namespace ZFecFS

/-- The three header fields of a share file (`metadata.h`). -/
structure Metadata where
  required : Nat
  index : Nat
  excessBytes : Nat
deriving DecidableEq, Repr

/-- Modelled from the spec: `metadata.h` is not among the sources.  `size` is `Metadata::size`
(the header length H) and `decode` is the constructor `Metadata(buffer)` over the H header bytes;
`none` stands for a constructor that throws (`CorruptMetadata`).  Every statement below is
proved for an arbitrary codec. -/
structure MetadataCodec where
  size : Nat
  decode : List Nat → Option Metadata

/-- Modelled from the spec: `abstractfile.h` is not among the sources.  `Size` is the length of
the file as an `off_t`; `Read size offset` is the positional read and returns the bytes that
were stored at the start of the caller's buffer, so that the returned count is the length of
that list (a short read returns a shorter list, and no read returns more than was asked
for). -/
structure AbstractFile where
  Size : Int
  Read : Nat → Nat → List Nat
  Read_le : ∀ size offset, (Read size offset).length ≤ size

/-- Modelled from the spec: a share file held as a byte string, read positionally
(`[H-byte Metadata | share data]`). -/
def File (bytes : List Nat) : AbstractFile :=
  { Size := (bytes.length : Int)
    Read := fun size offset => (bytes.drop offset).take size
    Read_le := fun size offset => by simp }

/-- How a run of the decoder ends when it does not return normally: the exceptions of
`ReadMetadata` and `FileDecoder::Open` (one constructor per `throw`, and `corruptMetadata` for a
throwing `Metadata` constructor), and the two kinds of undefined behaviour the embedding tracks.
`outOfFuel` is not an outcome of the program: it marks a run of a loop that was still going
when the fuel given to the embedding was used up. -/
inductive Failure where
  | tooFewEncodedFiles
  | unableToReadMetadata
  | corruptMetadata
  | inconsistentRequired
  | inconsistentExcessBytes
  | inconsistentFileSizes
  | requiredNotConsistentWithFilesystem
  | invalidExcessBytes
  | outOfBounds
  | divisionByZero
  | outOfFuel
deriving DecidableEq, Repr

/-- `FecWrapper` as `FileDecoder` uses it.  `sharesRequired` is the field of `fecwrapper.h`.
`Decode` is called by `FileDecoder::Read` but is missing from `fecwrapper.h`; it is kept as a
parameter: `Decode outBlocks inBlocks indices sz` receives the current contents of the K
output blocks, the K input blocks and the index vector and returns the bytes it stores through
the K output pointers. -/
structure FecWrapper where
  sharesRequired : Nat
  Decode : List (List Nat) → List (List Nat) → List Nat → Nat → List (List Nat)

/-- `EncodedFile::Size(originalSize, sharesRequired)` with H = `Metadata::size`;
`/` on `off_t` truncates towards zero. -/
def EncodedFile.Size (H : Nat) (originalSize : Int) (sharesRequired : Int) : Int :=
  (originalSize + sharesRequired - 1).tdiv sharesRequired + (H : Int)

/-- `ReadMetadata(file)` of `filedecoder.cpp`. -/
def ReadMetadata (codec : MetadataCodec) (file : AbstractFile) : Except Failure Metadata :=
  let buffer := file.Read codec.size 0
  if buffer.length ≠ codec.size then
    .error .unableToReadMetadata
  else
    match codec.decode buffer with
    | none => .error .corruptMetadata
    | some m => .ok m

/-- The fields of a `FileDecoder` that `Read` uses. -/
structure FileDecoder where
  encodedFiles : List AbstractFile
  fileIndices : List Nat
  metadata : Metadata
  encodedSize : Int
  fecWrapper : FecWrapper

/-- The `for` loop of `FileDecoder::Open` over the files after the first: it returns the
indices it stored into `fileIndices` (a vector of `unsigned char`). -/
def FileDecoder.Open.loop (codec : MetadataCodec) (firstMeta : Metadata) (encodedSize : Int) :
    List AbstractFile → Except Failure (List Nat)
  | [] => .ok []
  | file :: rest =>
    match ReadMetadata codec file with
    | .error e => .error e
    | .ok m =>
      if m.required ≠ firstMeta.required then .error .inconsistentRequired
      else if m.excessBytes ≠ firstMeta.excessBytes then .error .inconsistentExcessBytes
      else if file.Size ≠ encodedSize then .error .inconsistentFileSizes
      else
        match FileDecoder.Open.loop codec firstMeta encodedSize rest with
        | .error e => .error e
        | .ok indices => .ok (m.index % 256 :: indices)

/-- `FileDecoder::Open(encodedFiles, fecWrapper)`. -/
def FileDecoder.Open (codec : MetadataCodec) (encodedFiles : List AbstractFile)
    (fecWrapper : FecWrapper) : Except Failure FileDecoder :=
  match encodedFiles with
  | [] => .error .tooFewEncodedFiles
  | front :: rest =>
    let encodedSize := front.Size
    match ReadMetadata codec front with
    | .error e => .error e
    | .ok firstMeta =>
      match FileDecoder.Open.loop codec firstMeta encodedSize rest with
      | .error e => .error e
      | .ok indices =>
        if firstMeta.required ≠ fecWrapper.sharesRequired then
          .error .requiredNotConsistentWithFilesystem
        else if firstMeta.excessBytes ≥ firstMeta.required ∨ encodedSize < (codec.size : Int) then
          .error .invalidExcessBytes
        else
          .ok { encodedFiles := encodedFiles
                fileIndices := firstMeta.index % 256 :: indices
                metadata := firstMeta
                encodedSize := encodedSize
                fecWrapper := fecWrapper }

/-- Modelled from the spec: `filedecoder.h` is not among the sources.  The static
`FileDecoder::Size(metadata, encodedSize)` called at the end of `FileDecoder::Size(path)`:
`(encodedSize − H) · K − excessBytes`. -/
def FileDecoder.SizeOf (codec : MetadataCodec) (metadata : Metadata) (encodedSize : Int) : Int :=
  (encodedSize - (codec.size : Int)) * (metadata.required : Int) - (metadata.excessBytes : Int)

/-- Modelled from the spec: `filedecoder.h` is not among the sources.  The member
`FileDecoder::Size()` that `Read` compares the offset against. -/
def FileDecoder.Size (codec : MetadataCodec) (d : FileDecoder) : Int :=
  FileDecoder.SizeOf codec d.metadata d.encodedSize

/-- The per-thread scratch buffers of a `FileDecoder` (`threadLocalData.Get()`). -/
structure ThreadLocalData where
  readBuffers : List (List Nat)
  workBuffer : List Nat

/-- What a call of `FileDecoder::Read` leaves behind: the returned count, the caller's buffer
and the scratch buffers of the calling thread. -/
structure ReadResult where
  ret : Nat
  outBuffer : List Nat
  threadLocalData : ThreadLocalData

/-- `std::vector::resize(n)`: keep the first `n` elements, append value-initialised ones. -/
def resize {α : Type} (v : List α) (n : Nat) (fill : α) : List α :=
  v.take n ++ List.replicate (n - v.length) fill

/-- A callee storing `data` at the start of `buffer`: the bytes behind the stored ones keep
their old value, and nothing is stored behind the end of the buffer. -/
def store (buffer data : List Nat) : List Nat :=
  data.take buffer.length ++ buffer.drop data.length

/-- `std::swap(v[i], v[j])`; `none` when an index is outside the vector. -/
def swapAt {α : Type} (v : List α) (i j : Nat) : Option (List α) :=
  match v[i]?, v[j]? with
  | some a, some b => some ((v.set i b).set j a)
  | _, _ => none

/-- The loop of `FileDecoder::NormalizeIndices` from loop variable `i` on.  A pointer is any
value of type `α`. -/
def FileDecoder.NormalizeIndices.loop {α : Type} (sharesRequired : Nat) :
    Nat → Nat → List α → List Nat → Except Failure (List α × List Nat)
  | 0, _, _, _ => .error .outOfFuel
  | fuel + 1, i, fecInputPtrs, indices =>
    if i < sharesRequired then
      match indices[i]? with
      | none => .error .outOfBounds
      | some x =>
        let index := x % 256
        if index < sharesRequired ∧ index ≠ i then
          match indices[index]? with
          | none => .error .outOfBounds
          | some y =>
            if y ≠ index then
              match swapAt indices i index, swapAt fecInputPtrs i index with
              | some indices1, some fecInputPtrs1 =>
                FileDecoder.NormalizeIndices.loop sharesRequired fuel i fecInputPtrs1 indices1
              | _, _ => .error .outOfBounds
            else
              FileDecoder.NormalizeIndices.loop sharesRequired fuel i fecInputPtrs indices
        else
          FileDecoder.NormalizeIndices.loop sharesRequired fuel (i + 1) fecInputPtrs indices
    else
      .ok (fecInputPtrs, indices)

/-- `FileDecoder::NormalizeIndices(fecInputPtrs, indices)`. -/
def FileDecoder.NormalizeIndices {α : Type} (sharesRequired : Nat) (fuel : Nat)
    (fecInputPtrs : List α) (indices : List Nat) : Except Failure (List α × List Nat) :=
  FileDecoder.NormalizeIndices.loop sharesRequired fuel 0 fecInputPtrs indices

/-- `FileDecoder::CopyToNthElement(out, outEnd, in, stride)`: `out` and `outEnd` are positions
in `outBuffer`, `inp` is a position in the block `src`.  The result is the buffer after the
copy (the returned iterator is not used by `Read`).  A read behind the end of the block or a
write behind the end of the caller's buffer ends the run with `Failure.outOfBounds`. -/
def FileDecoder.CopyToNthElement :
    Nat → List Nat → Nat → Nat → List Nat → Nat → Nat → Except Failure (List Nat)
  | 0, _, _, _, _, _, _ => .error .outOfFuel
  | fuel + 1, outBuffer, out, outEnd, src, inp, stride =>
    if out < outEnd then
      match src[inp]? with
      | none => .error .outOfBounds
      | some byte =>
        if out < outBuffer.length then
          FileDecoder.CopyToNthElement fuel (outBuffer.set out byte) (out + stride) outEnd
            src (inp + 1) stride
        else
          .error .outOfBounds
    else
      .ok outBuffer

/-- The first loop of `FileDecoder::Read`: share `i` is read into `readBuffers[i]` and
`minBytesRead` is lowered to the shortest read. -/
def FileDecoder.Read.readShares (encodedFiles : List AbstractFile)
    (bytesToRead encodedOffset sharesRequired : Nat) (readBuffers : List (List Nat)) :
    Except Failure (List (List Nat) × Nat) :=
  (List.range sharesRequired).foldlM
    (fun (st : List (List Nat) × Nat) (i : Nat) =>
      match encodedFiles[i]?, st.1[i]? with
      | some file, some buffer =>
        let data := file.Read bytesToRead encodedOffset
        .ok (st.1.set i (store (resize buffer bytesToRead 0) data), min st.2 data.length)
      | _, _ => .error .outOfBounds)
    (readBuffers, bytesToRead)

/-- The last loop of `FileDecoder::Read`: column `i` is copied into every `sharesRequired`-th
byte of the caller's buffer.  `outBuffer + i - offsetCorrection`, moved on by `sharesRequired`
when `i < offsetCorrection`, is the position `i + sharesRequired - offsetCorrection`. -/
def FileDecoder.Read.interleave (fuel sharesRequired offsetCorrection size : Nat)
    (fecInputIndices : List Nat) (fecInputPtrs fecOutputPtrs : List (List Nat))
    (outBuffer : List Nat) : Except Failure (List Nat) :=
  (List.range sharesRequired).foldlM
    (fun (outBuffer : List Nat) (i : Nat) =>
      match fecInputIndices[i]?, fecInputPtrs[i]?, fecOutputPtrs[i]? with
      | some index, some inBlock, some outBlock =>
        let decoded := if index < sharesRequired then inBlock else outBlock
        if i < offsetCorrection then
          FileDecoder.CopyToNthElement fuel outBuffer (i + sharesRequired - offsetCorrection)
            size decoded 1 sharesRequired
        else
          FileDecoder.CopyToNthElement fuel outBuffer (i - offsetCorrection)
            size decoded 0 sharesRequired
      | _, _, _ => .error .outOfBounds)
    outBuffer

/-- The blocks behind `fecOutputPtrs` before `Decode` runs: `workBuffer` is resized to
`minBytesRead * sharesRequired` bytes and `fecOutputPtrs[i]` points at its bytes
`[i * minBytesRead, (i + 1) * minBytesRead)`. -/
def FileDecoder.Read.outBlocks (workBuffer : List Nat) (sharesRequired minBytesRead : Nat) :
    List (List Nat) :=
  (List.range sharesRequired).map
    (fun i => ((resize workBuffer (minBytesRead * sharesRequired) 0).drop
      (i * minBytesRead)).take minBytesRead)

/-- The blocks behind `fecOutputPtrs` after
`fecWrapper.Decode(fecOutputPtrs, fecInputPtrs, fecInputIndices, minBytesRead)`. -/
def FileDecoder.Read.fecOutputPtrs (fecWrapper : FecWrapper) (workBuffer : List Nat)
    (fecInputPtrs : List (List Nat)) (fecInputIndices : List Nat) (minBytesRead : Nat) :
    List (List Nat) :=
  let outBlocks := FileDecoder.Read.outBlocks workBuffer fecWrapper.sharesRequired minBytesRead
  let decodedBlocks := fecWrapper.Decode outBlocks fecInputPtrs fecInputIndices minBytesRead
  (List.range fecWrapper.sharesRequired).map
    (fun i => store (outBlocks.getD i []) (decodedBlocks.getD i []))

/-- `FileDecoder::Read(outBuffer, size, offset)` on the scratch buffers `tl` of the calling
thread. -/
def FileDecoder.Read (codec : MetadataCodec) (fuel : Nat) (d : FileDecoder)
    (tl : ThreadLocalData) (outBuffer : List Nat) (size offset : Nat) :
    Except Failure ReadResult :=
  if (offset : Int) ≥ d.Size codec then
    .ok { ret := 0, outBuffer := outBuffer, threadLocalData := tl }
  else
    let sharesRequired := d.fecWrapper.sharesRequired
    if sharesRequired = 0 then
      .error .divisionByZero
    else
      let bytesToRead := (size + sharesRequired - 1) / sharesRequired + 1
      match FileDecoder.Read.readShares d.encodedFiles bytesToRead
          (offset / sharesRequired + codec.size) sharesRequired
          (resize tl.readBuffers sharesRequired []) with
      | .error e => .error e
      | .ok (readBuffers, minBytesRead) =>
        if minBytesRead = 0 then
          .ok { ret := 0, outBuffer := outBuffer,
                threadLocalData := { readBuffers := readBuffers, workBuffer := tl.workBuffer } }
        else
          match FileDecoder.NormalizeIndices sharesRequired fuel readBuffers d.fileIndices with
          | .error e => .error e
          | .ok (fecInputPtrs, fecInputIndices) =>
            let fecOutputPtrs := FileDecoder.Read.fecOutputPtrs d.fecWrapper tl.workBuffer
              fecInputPtrs fecInputIndices minBytesRead
            let offsetCorrection := offset % sharesRequired
            let size1 := min (min size (minBytesRead * sharesRequired - offsetCorrection))
              (d.Size codec - (offset : Int)).toNat
            match FileDecoder.Read.interleave fuel sharesRequired offsetCorrection size1
                fecInputIndices fecInputPtrs fecOutputPtrs outBuffer with
            | .error e => .error e
            | .ok out =>
              .ok { ret := size1, outBuffer := out,
                    threadLocalData :=
                      { readBuffers := readBuffers, workBuffer := fecOutputPtrs.flatten } }

/-- Modelled from the spec: a three-byte header `(required, index, excessBytes)`, one byte per
field, as in the literal scenarios (H = 3).  It is used for concrete instances only. -/
def codec3 : MetadataCodec :=
  { size := 3
    decode := fun buffer =>
      some { required := buffer.getD 0 0, index := buffer.getD 1 0,
             excessBytes := buffer.getD 2 0 } }

/-- The byte `FileDecoder::Open` stores into `fileIndices` for a file: the `index` field of its
metadata as an `unsigned char` (0 when the metadata cannot be read, in which case `Open`
throws before using it). -/
def storedIndex (codec : MetadataCodec) (file : AbstractFile) : Nat :=
  match ReadMetadata codec file with
  | .ok m => m.index % 256
  | .error _ => 0

/-- A K = 2, N = 3 code for concrete instances: share 2 is the bytewise exclusive-or of shares
0 and 1, and `Decode` rebuilds a missing column as the exclusive-or of its two input blocks. -/
def parityFec : FecWrapper :=
  { sharesRequired := 2
    Decode := fun _ inBlocks _ sz =>
      (List.range 2).map
        (fun _ => (List.zipWith Nat.xor (inBlocks.getD 0 []) (inBlocks.getD 1 [])).take sz) }

/-- Share 0 of `"abcde"` for K = 2, H = 3: header `(2, 0, 1)` and data `"ace"`. -/
def share0 : AbstractFile := File [2, 0, 1, 97, 99, 101]

/-- Share 1 of `"abcde"` for K = 2, H = 3: header `(2, 1, 1)` and data `"bd\0"`. -/
def share1 : AbstractFile := File [2, 1, 1, 98, 100, 0]

/-- A second file whose header claims index 0. -/
def share0Again : AbstractFile := File [2, 0, 1, 98, 100, 0]

/-- Share 1 with a header that claims `required = 3`. -/
def share1Required3 : AbstractFile := File [3, 1, 1, 98, 100, 0]

/-- The loop invariant of `FileDecoder::NormalizeIndices` on distinct indices: both vectors
have a slot for every `i < K`, no index occurs in two slots, every index is a byte, and every
slot before the loop variable that holds a systematic index holds its own index. -/
structure NormInv {α : Type} (K i : Nat) (ptrs : List α) (indices : List Nat) : Prop where
  lenI : K ≤ indices.length
  lenP : K ≤ ptrs.length
  inj : ∀ a b x : Nat, indices[a]? = some x → indices[b]? = some x → a = b
  small : ∀ a x : Nat, indices[a]? = some x → x < 256
  fixed : ∀ j : Nat, j < i → ∀ x : Nat, indices[j]? = some x → x < K → x = j

/-- The slots below K that do not hold their own index. -/
def nonFixed (K : Nat) (indices : List Nat) : Finset Nat :=
  (Finset.range K).filter (fun j => indices[j]? ≠ some j)

/-- The vectors `ptrs1`, `indices1` are `ptrs`, `indices` with the slots below K rearranged
by one common bijection, so that every index stays with the pointer it came with. -/
def Rearranged {α : Type} (K : Nat) (ptrs : List α) (indices : List Nat)
    (ptrs1 : List α) (indices1 : List Nat) : Prop :=
  ∃ τ : Equiv.Perm Nat, (∀ s : Nat, K ≤ s → τ s = s) ∧
    (∀ s : Nat, indices1[s]? = indices[τ s]?) ∧ (∀ s : Nat, ptrs1[s]? = ptrs[τ s]?)

/-- The block the interleave loop of `FileDecoder::Read` copies column `i` from:
`fecInputIndices[i] < sharesRequired ? fecInputPtrs[i] : fecOutputPtrs[i]`. -/
def FileDecoder.Read.decoded (sharesRequired : Nat) (fecInputIndices : List Nat)
    (fecInputPtrs fecOutputPtrs : List (List Nat)) (i : Nat) : List Nat :=
  if fecInputIndices.getD i 0 < sharesRequired then fecInputPtrs.getD i []
  else fecOutputPtrs.getD i []

/-- The five bytes of `"abcde"`. -/
def abcde : List Nat := [97, 98, 99, 100, 101]

/-- Header of share `j` of `"abcde"` for K = 2 under `codec3`. -/
def abcdeHeader (j : Nat) : List Nat := [2, j, 1]

/-- Data of share `j` of `"abcde"` for K = 2 under `parityFec`: `"ace"`, `"bd\0"` and their
exclusive-or. -/
def abcdeData (j : Nat) : List Nat :=
  if j = 0 then [97, 99, 101] else if j = 1 then [98, 100, 0] else [3, 7, 101]

/-- The handle `FileDecoder::Open` returns for shares 0 and 1 of `"abcde"`. -/
def decoder01 : FileDecoder :=
  { encodedFiles := [share0, share1]
    fileIndices := [0, 1]
    metadata := { required := 2, index := 0, excessBytes := 1 }
    encodedSize := 6
    fecWrapper := parityFec }

/-- Modelled from the spec: the share file layout `[H-byte Metadata | share data]` for the
shares listed in `σ`, share `j` having header bytes `hdr j` and data bytes `body j`. -/
def shareFiles (hdr body : Nat → List Nat) (σ : List Nat) : List AbstractFile :=
  σ.map (fun j => File (hdr j ++ body j))

/-- Modelled from the spec: `hdr j`, `body j` are share `j` of the original bytes `F` for
`K` required shares.  The header has H bytes and decodes to `required = K`, `index = j`,
`excessBytes = (K − |F| mod K) mod K` (header law); the data has `⌈|F| / K⌉` bytes; and for a
systematic share (`j < K`) the data byte at position `p` is `F[p·K + j]`, or 0 past the end of
`F` (systematic law).  The data bytes of the other shares are not constrained here. -/
def IsShareOf (codec : MetadataCodec) (K : Nat) (F : List Nat) (hdr body : Nat → List Nat)
    (j : Nat) : Prop :=
  (hdr j).length = codec.size ∧
  codec.decode (hdr j)
    = some { required := K, index := j, excessBytes := (K - F.length % K) % K } ∧
  (body j).length = (F.length + K - 1) / K ∧
  (j < K → ∀ p, p < (F.length + K - 1) / K → (body j)[p]? = some (F.getD (p * K + j) 0))

/-! ### The encoder facade `ZFecFSEncoder` (`src/c++/zfecfsencoder.cpp`) -/

/-- The fields of `struct stat` that `ZFecFSEncoder` reads or writes. -/
structure Stat where
  st_ino : Nat
  st_mode : Nat
  st_nlink : Nat
  st_size : Int
deriving DecidableEq, Repr

/-- The result of `memset(&st, 0, sizeof(struct stat))`. -/
def Stat.zero : Stat := { st_ino := 0, st_mode := 0, st_nlink := 0, st_size := 0 }

/-- The mask `S_IFMT` of `<sys/stat.h>`. -/
def S_IFMT : Nat := 0o170000

/-- The file type `S_IFREG` of `<sys/stat.h>`. -/
def S_IFREG : Nat := 0o100000

/-- The file type `S_IFDIR` of `<sys/stat.h>`. -/
def S_IFDIR : Nat := 0o040000

/-- The mask `O_ACCMODE` of `<fcntl.h>`. -/
def O_ACCMODE : Nat := 3

/-- The access mode `O_RDONLY` of `<fcntl.h>`. -/
def O_RDONLY : Nat := 0

/-- The error number `ENOENT` of `<errno.h>`. -/
def ENOENT : Int := 2

/-- The error number `EACCES` of `<errno.h>`. -/
def EACCES : Int := 13

/-- Modelled from the spec: `decodedpath.h` is not among the sources.  The result of
`DecodedPath::DecodePath`: the share index, whether the path named one, and the path in the
source tree. -/
structure DecodedPath where
  shareIndex : Nat
  indexGiven : Bool
  path : String
deriving DecidableEq, Repr

/-- A directory entry as `readdir` returns it. -/
structure Dirent where
  d_ino : Nat
  d_type : Nat
  d_name : String
deriving DecidableEq, Repr

/-- The directory stream behind a non-zero directory handle: its entries, read in order;
`telldir` is the number of entries read so far and `seekdir` sets that number. -/
structure DirStream where
  entries : List Dirent
deriving DecidableEq, Repr

/-- One call `filler(buffer, name, stat, off)` of the directory filler. -/
structure FillerCall where
  name : String
  stat : Option Stat
  off : Nat
deriving DecidableEq, Repr

/-- The fields of `fuse_file_info` that `ZFecFSEncoder::Open` reads or writes. -/
structure FuseFileInfo where
  flags : Nat
  fh : Nat
  keep_cache : Nat
deriving DecidableEq, Repr

/-- Everything `ZFecFSEncoder` calls and that is not in `zfecfsencoder.cpp`.  `DecodePath` and
`EncodeShareIndex` are `DecodedPath::DecodePath(path, source)` (`none` when it throws) and
`DecodedPath::EncodeShareIndex` of `decodedpath.h`; `lstat` is the system call, with the error
number on failure; `EncodedFileOpen` is `EncodedFile::Open(sharesRequired, decodedPath)`, with
the value of `errno` when it throws.  All four are parameters. -/
structure Host where
  DecodePath : String → String → Option DecodedPath
  EncodeShareIndex : Nat → String
  lstat : String → Except Int Stat
  EncodedFileOpen : Nat → DecodedPath → Except Int Nat

/-- The configuration of a `ZFecFSEncoder` (the fields of its base class `ZFecFS`). -/
structure ZFecFSEncoder where
  sharesRequired : Nat
  numShares : Nat
  source : String
deriving DecidableEq, Repr

/-- Modelled from the spec: `zfecfs.h` is not among the sources.  `ZFecFS::EncodedSize` is the
size a file of `originalSize` bytes is shown with, `Size(originalSize, K)`. -/
def ZFecFSEncoder.EncodedSize (H : Nat) (fs : ZFecFSEncoder) (originalSize : Int) : Int :=
  EncodedFile.Size H originalSize (fs.sharesRequired : Int)

/-- `ZFecFSEncoder::Getattr(path, stbuf)`: the returned code and the contents of `stbuf`
afterwards. -/
def ZFecFSEncoder.Getattr (H : Nat) (host : Host) (fs : ZFecFSEncoder) (path : String)
    (stbuf : Stat) : Int × Stat :=
  match host.DecodePath path fs.source with
  | none => (-ENOENT, stbuf)
  | some decodedPath =>
    if decodedPath.indexGiven then
      match host.lstat decodedPath.path with
      | .error errno => (-errno, stbuf)
      | .ok st =>
        if st.st_mode &&& S_IFMT = S_IFREG then
          (0, { st with st_size := fs.EncodedSize H st.st_size })
        else
          (0, st)
    else
      (0, { Stat.zero with st_mode := S_IFDIR ||| 0o755, st_nlink := fs.numShares + 2 })

/-- The `for` loop of `ZFecFSEncoder::Readdir` over the entries of a source directory, from
the entry at position `pos` on: `st` is the local `struct stat`, `calls` the filler calls made
so far, and the filler answers each call with an `int` (1 ends the loop). -/
def ZFecFSEncoder.Readdir.loop (H : Nat) (fs : ZFecFSEncoder)
    (filler : List FillerCall → FillerCall → Int) :
    List Dirent → Nat → Stat → List FillerCall → List FillerCall
  | [], _, _, calls => calls
  | entry :: rest, pos, st, calls =>
    let st1 : Stat :=
      { st with st_ino := entry.d_ino, st_mode := entry.d_type <<< 12,
                st_size := fs.EncodedSize H st.st_size }
    let call : FillerCall := { name := entry.d_name, stat := some st1, off := pos + 1 }
    if filler calls call = 1 then calls ++ [call]
    else ZFecFSEncoder.Readdir.loop H fs filler rest (pos + 1) st1 (calls ++ [call])

/-- `ZFecFSEncoder::Readdir(path, buffer, filler, offset, fileInfo)` for the directory handle
`fh`, where `d` is the stream a non-zero handle points at: the returned code and the filler
calls in order.  The loop variable `shareIndex` of the root listing counts in the natural
numbers.  In the other branch `d` is the handle itself, so the test `d == NULL` cannot
succeed there. -/
def ZFecFSEncoder.Readdir (H : Nat) (host : Host) (fs : ZFecFSEncoder)
    (filler : List FillerCall → FillerCall → Int) (offset : Nat) (fh : Nat) (d : DirStream) :
    Int × List FillerCall :=
  let st := Stat.zero
  if fh = 0 then
    let calls : List FillerCall :=
      [{ name := ".", stat := none, off := 0 }, { name := "..", stat := none, off := 0 }]
    (0, (List.range fs.numShares).foldl
      (fun calls shareIndex =>
        calls ++ [{ name := host.EncodeShareIndex shareIndex, stat := none, off := 0 }])
      calls)
  else
    let pos := if offset ≠ 0 then offset else 0
    (0, ZFecFSEncoder.Readdir.loop H fs filler (d.entries.drop pos) pos st [])

/-- What a call of `ZFecFSEncoder::Open` leaves behind: the returned code, `fileInfo`, and the
decoded paths `EncodedFile::Open` was called with. -/
structure OpenResult where
  ret : Int
  fileInfo : FuseFileInfo
  opened : List DecodedPath
deriving DecidableEq, Repr

/-- `ZFecFSEncoder::Open(path, fileInfo)`. -/
def ZFecFSEncoder.Open (host : Host) (fs : ZFecFSEncoder) (path : String)
    (fileInfo : FuseFileInfo) : OpenResult :=
  let fileInfo1 : FuseFileInfo := { fileInfo with keep_cache := 1 }
  match host.DecodePath path fs.source with
  | none => { ret := -ENOENT, fileInfo := fileInfo1, opened := [] }
  | some decodedPath =>
    if fileInfo1.flags &&& O_ACCMODE ≠ O_RDONLY then
      { ret := -EACCES, fileInfo := fileInfo1, opened := [] }
    else
      match host.EncodedFileOpen fs.sharesRequired decodedPath with
      | .error errno => { ret := -errno, fileInfo := fileInfo1, opened := [decodedPath] }
      | .ok handle =>
        { ret := 0, fileInfo := { fileInfo1 with fh := handle }, opened := [decodedPath] }

/-- The accesses of `FileDecoder::CopyToNthElement(out, outEnd, in, stride)` in order: every
pass of the loop body `*out = *in` reads the block at position `inp` and writes the caller's
buffer at position `out`. -/
def FileDecoder.CopyToNthElement.accesses :
    Nat → Nat → Nat → Nat → Nat → Except Failure (List (Nat × Nat))
  | 0, _, _, _, _ => .error .outOfFuel
  | fuel + 1, out, outEnd, inp, stride =>
    if out < outEnd then
      match FileDecoder.CopyToNthElement.accesses fuel (out + stride) outEnd (inp + 1) stride with
      | .error e => .error e
      | .ok rest => .ok ((inp, out) :: rest)
    else
      .ok []

/-- The accesses of the interleave loop of `FileDecoder::Read` in order, as triples of the
column `i`, the position read in the block of column `i` and the position written in the
caller's buffer. -/
def FileDecoder.Read.interleaveAccesses (fuel sharesRequired offsetCorrection size : Nat) :
    Except Failure (List (Nat × Nat × Nat)) :=
  (List.range sharesRequired).foldlM
    (fun (acc : List (Nat × Nat × Nat)) (i : Nat) =>
      match (if i < offsetCorrection then
          FileDecoder.CopyToNthElement.accesses fuel (i + sharesRequired - offsetCorrection)
            size 1 sharesRequired
        else
          FileDecoder.CopyToNthElement.accesses fuel (i - offsetCorrection)
            size 0 sharesRequired) with
      | .error e => .error e
      | .ok column => .ok (acc ++ column.map (fun a => (i, a.1, a.2))))
    []

/-- A host for concrete instances: the path `/` decodes to the virtual root, every other path
to share 0 of the source file `f`, a regular file of five bytes; share indices are written as
two lower-case hexadecimal digits. -/
def demoHost : Host :=
  { DecodePath := fun path source =>
      if path = "/" then some { shareIndex := 0, indexGiven := false, path := source }
      else some { shareIndex := 0, indexGiven := true, path := source ++ "/f" }
    EncodeShareIndex := fun i =>
      String.mk [Char.ofNat (if i / 16 < 10 then 48 + i / 16 else 87 + i / 16),
                 Char.ofNat (if i % 16 < 10 then 48 + i % 16 else 87 + i % 16)]
    lstat := fun _ => .ok { st_ino := 42, st_mode := 0o100644, st_nlink := 1, st_size := 5 }
    EncodedFileOpen := fun _ _ => .ok 1 }

/-- An encoder facade for concrete instances: K = 2, N = 3. -/
def demoFs : ZFecFSEncoder := { sharesRequired := 2, numShares := 3, source := "src" }

/-- A source directory with the two regular files `f` and `g`. -/
def demoDir : DirStream :=
  { entries := [{ d_ino := 42, d_type := 8, d_name := "f" },
                { d_ino := 43, d_type := 8, d_name := "g" }] }

/-! ## Arithmetic of the encoded size -/

theorem ceil_mul_eq (n K : Nat) (hK : 0 < K) :
    (n + K - 1) / K * K = n + (K - n % K) % K := by
  have hdm := Nat.div_add_mod n K
  have hr := Nat.mod_lt n hK
  generalize n / K = q at hdm
  generalize n % K = r at hdm hr
  subst hdm
  rcases Nat.eq_zero_or_pos r with h0 | hpos
  · subst h0
    have h1 : K * q + 0 + K - 1 = K * q + (K - 1) := by omega
    have h2 : (K - 1) / K = 0 := Nat.div_eq_of_lt (by omega)
    rw [h1, Nat.mul_add_div hK, h2, Nat.sub_zero, Nat.mod_self, Nat.mul_comm]
    rfl
  · have h1 : K * q + r + K - 1 = K * (q + 1) + (r - 1) := by
      rw [Nat.mul_add, Nat.mul_one]; omega
    have h2 : (r - 1) / K = 0 := Nat.div_eq_of_lt (by omega)
    have h3 : (K - r) % K = K - r := Nat.mod_eq_of_lt (by omega)
    rw [h1, Nat.mul_add_div hK, h2, h3, Nat.add_zero, Nat.add_mul, Nat.one_mul, Nat.mul_comm]
    omega

theorem excess_lt (n K : Nat) (hK : 0 < K) : (K - n % K) % K < K := Nat.mod_lt _ hK

theorem EncodedFile.Size_natCast (H n K : Nat) :
    EncodedFile.Size H (n : Int) (K : Int) = (((n + K - 1) / K + H : Nat) : Int) := by
  unfold EncodedFile.Size
  rcases Nat.eq_zero_or_pos K with h0 | hK
  · subst h0; simp
  · have h1 : ((n : Int) + (K : Int) - 1) = ((n + K - 1 : Nat) : Int) := by omega
    rw [h1, Int.tdiv_eq_ediv (by omega) (by omega)]
    push_cast
    rfl

theorem EncodedFile.Size_ceil (H : Nat) (originalSize sharesRequired : Int)
    (h0 : 0 ≤ originalSize) (hK : 1 ≤ sharesRequired) :
    EncodedFile.Size H originalSize sharesRequired
      = Int.ceil ((originalSize : ℚ) / (sharesRequired : ℚ)) + (H : Int) := by
  obtain ⟨n, rfl⟩ := Int.eq_ofNat_of_zero_le h0
  obtain ⟨K, rfl⟩ := Int.eq_ofNat_of_zero_le (by omega : (0 : Int) ≤ sharesRequired)
  have hKpos : 0 < K := by omega
  rw [EncodedFile.Size_natCast]
  have hmul := ceil_mul_eq n K hKpos
  have hlt := excess_lt n K hKpos
  have hceil : Int.ceil (((n : Int) : ℚ) / ((K : Int) : ℚ)) = (((n + K - 1) / K : Nat) : Int) := by
    rw [Int.ceil_eq_iff]
    have hKq : (0 : ℚ) < (K : ℚ) := by exact_mod_cast hKpos
    have e1 : (((n + K - 1) / K : Nat) : ℚ) * (K : ℚ) = (n : ℚ) + (((K - n % K) % K : Nat) : ℚ) := by
      exact_mod_cast hmul
    have e2 : (((K - n % K) % K : Nat) : ℚ) < (K : ℚ) := by exact_mod_cast hlt
    have e3 : (0 : ℚ) ≤ (((K - n % K) % K : Nat) : ℚ) := Nat.cast_nonneg _
    simp only [Int.cast_natCast]
    constructor
    · rw [lt_div_iff₀ hKq]
      nlinarith
    · rw [div_le_iff₀ hKq]
      nlinarith
  rw [hceil]
  push_cast
  rfl

/-- C8 (size law): for every `originalSize ≥ 0` and every `sharesRequired ≥ 1`,
`EncodedFile::Size(originalSize, sharesRequired)` is `⌈originalSize / sharesRequired⌉ + H`,
the ceiling taken over the rationals.  The function has no share-index argument, so the value
is the same for every share. -/
theorem EncodedFile.Size_eq_ceil (H : Nat) (originalSize sharesRequired : Int)
    (h0 : 0 ≤ originalSize) (hK : 1 ≤ sharesRequired) :
    EncodedFile.Size H originalSize sharesRequired
      = Int.ceil ((originalSize : ℚ) / (sharesRequired : ℚ)) + (H : Int) :=
  EncodedFile.Size_ceil H originalSize sharesRequired h0 hK

/-- The literal rows of the size law (H = 3): `Size(5, 2) = 6` and `Size(0, 2) = 3`, the
first one also through `EncodedFile.Size_eq_ceil`. -/
theorem EncodedFile.Size_eq_ceil_witness :
    EncodedFile.Size 3 5 2 = 6 ∧ EncodedFile.Size 3 0 2 = 3 ∧
      EncodedFile.Size 3 5 2 = Int.ceil (((5 : Int) : ℚ) / ((2 : Int) : ℚ)) + ((3 : Nat) : Int) :=
  ⟨by decide, by decide, EncodedFile.Size_eq_ceil 3 5 2 (by decide) (by decide)⟩

/-- C9 (size round trip): for every `originalSize` and every K ≥ 1, with
`excessBytes = (K − originalSize mod K) mod K`, the decoder's size formula applied to the
encoder's size gives `originalSize` back, whatever the share index in the header, and
`excessBytes < K`. -/
theorem FileDecoder.SizeOf_EncodedFile_Size (codec : MetadataCodec) (originalSize K index : Nat)
    (hK : 1 ≤ K) :
    FileDecoder.SizeOf codec
        { required := K, index := index, excessBytes := (K - originalSize % K) % K }
        (EncodedFile.Size codec.size (originalSize : Int) (K : Int)) = (originalSize : Int)
      ∧ (K - originalSize % K) % K < K := by
  refine ⟨?_, excess_lt originalSize K hK⟩
  have hmul := ceil_mul_eq originalSize K hK
  rw [EncodedFile.Size_natCast]
  unfold FileDecoder.SizeOf
  simp only []
  have e1 : ((((originalSize + K - 1) / K + codec.size : Nat) : Int) - (codec.size : Int))
      = (((originalSize + K - 1) / K : Nat) : Int) := by push_cast; ring
  rw [e1]
  have e2 : ((((originalSize + K - 1) / K : Nat) : Int)) * (K : Int)
      = (originalSize : Int) + (((K - originalSize % K) % K : Nat) : Int) := by
    exact_mod_cast hmul
  rw [e2]
  ring

/-- The size round trip on the five-byte file of the scenarios: K = 2, H = 3, share 1. -/
theorem FileDecoder.SizeOf_EncodedFile_Size_witness :
    FileDecoder.SizeOf codec3 { required := 2, index := 1, excessBytes := (2 - 5 % 2) % 2 }
        (EncodedFile.Size codec3.size ((5 : Nat) : Int) ((2 : Nat) : Int)) = ((5 : Nat) : Int)
      ∧ (2 - 5 % 2) % 2 < 2 :=
  FileDecoder.SizeOf_EncodedFile_Size codec3 5 2 1 (by decide)

/-! ## `FileDecoder::Open` -/

theorem FileDecoder.Open.loop_ok (codec : MetadataCodec) (firstMeta : Metadata)
    (encodedSize : Int) (rest : List AbstractFile) (indices : List Nat)
    (h : FileDecoder.Open.loop codec firstMeta encodedSize rest = .ok indices) :
    (∀ f ∈ rest, ∃ m, ReadMetadata codec f = .ok m ∧ m.required = firstMeta.required ∧
        m.excessBytes = firstMeta.excessBytes ∧ f.Size = encodedSize) ∧
      indices = rest.map (storedIndex codec) := by
  induction rest generalizing indices with
  | nil =>
    simp only [FileDecoder.Open.loop, Except.ok.injEq] at h
    subst h
    simp
  | cons file rest ih =>
    unfold FileDecoder.Open.loop at h
    cases hm : ReadMetadata codec file with
    | error e => rw [hm] at h; cases h
    | ok m =>
      rw [hm] at h
      simp only [] at h
      split_ifs at h with h1 h2 h3
      cases hl : FileDecoder.Open.loop codec firstMeta encodedSize rest with
      | error e => rw [hl] at h; cases h
      | ok idx =>
        rw [hl] at h
        simp only [Except.ok.injEq] at h
        obtain ⟨ih1, ih2⟩ := ih idx hl
        constructor
        · intro f hf
          rcases List.mem_cons.mp hf with rfl | hf
          · exact ⟨m, hm, not_not.mp h1, not_not.mp h2, not_not.mp h3⟩
          · exact ih1 f hf
        · rw [← h, ih2]
          simp [storedIndex, hm]

theorem FileDecoder.Open.loop_of_consistent (codec : MetadataCodec) (firstMeta : Metadata)
    (encodedSize : Int) (rest : List AbstractFile)
    (h : ∀ f ∈ rest, ∃ m, ReadMetadata codec f = .ok m ∧ m.required = firstMeta.required ∧
        m.excessBytes = firstMeta.excessBytes ∧ f.Size = encodedSize) :
    FileDecoder.Open.loop codec firstMeta encodedSize rest
      = .ok (rest.map (storedIndex codec)) := by
  induction rest with
  | nil => rfl
  | cons file rest ih =>
    obtain ⟨m, hm, h1, h2, h3⟩ := h file (List.mem_cons_self _ _)
    unfold FileDecoder.Open.loop
    rw [hm]
    simp only [h1, h2, h3, ne_eq, not_true_eq_false, if_false]
    rw [ih (fun f hf => h f (List.mem_cons_of_mem _ hf))]
    simp [storedIndex, hm]

theorem FileDecoder.Open.loop_error (codec : MetadataCodec) (firstMeta : Metadata)
    (encodedSize : Int) (rest : List AbstractFile) (e : Failure)
    (hread : ∀ f ∈ rest, ∃ m, ReadMetadata codec f = .ok m)
    (h : FileDecoder.Open.loop codec firstMeta encodedSize rest = .error e) :
    e = .inconsistentRequired ∨ e = .inconsistentExcessBytes ∨ e = .inconsistentFileSizes := by
  induction rest with
  | nil => simp [FileDecoder.Open.loop] at h
  | cons file rest ih =>
    obtain ⟨m, hm⟩ := hread file (List.mem_cons_self _ _)
    unfold FileDecoder.Open.loop at h
    rw [hm] at h
    simp only [] at h
    split_ifs at h with h1 h2 h3
    · cases h; exact Or.inl rfl
    · cases h; exact Or.inr (Or.inl rfl)
    · cases h; exact Or.inr (Or.inr rfl)
    · cases hl : FileDecoder.Open.loop codec firstMeta encodedSize rest with
      | error e2 =>
        rw [hl] at h
        cases h
        exact ih (fun f hf => hread f (List.mem_cons_of_mem _ hf)) hl
      | ok idx => rw [hl] at h; cases h

/-- The handle `FileDecoder::Open` builds when every check passes. -/
theorem FileDecoder.Open_ok_iff (codec : MetadataCodec) (files : List AbstractFile)
    (fec : FecWrapper) (d : FileDecoder) :
    FileDecoder.Open codec files fec = .ok d ↔
      ∃ front rest firstMeta, files = front :: rest ∧ ReadMetadata codec front = .ok firstMeta ∧
        (∀ f ∈ rest, ∃ m, ReadMetadata codec f = .ok m ∧ m.required = firstMeta.required ∧
          m.excessBytes = firstMeta.excessBytes ∧ f.Size = front.Size) ∧
        firstMeta.required = fec.sharesRequired ∧
        firstMeta.excessBytes < firstMeta.required ∧ (codec.size : Int) ≤ front.Size ∧
        d = { encodedFiles := files, fileIndices := files.map (storedIndex codec),
              metadata := firstMeta, encodedSize := front.Size, fecWrapper := fec } := by
  constructor
  · intro h
    cases files with
    | nil => cases h
    | cons front rest =>
      unfold FileDecoder.Open at h
      simp only [] at h
      cases hm : ReadMetadata codec front with
      | error e => rw [hm] at h; cases h
      | ok firstMeta =>
        rw [hm] at h
        simp only [] at h
        cases hl : FileDecoder.Open.loop codec firstMeta front.Size rest with
        | error e => rw [hl] at h; cases h
        | ok idx =>
          rw [hl] at h
          simp only [] at h
          split_ifs at h with h1 h2
          simp only [Except.ok.injEq] at h
          obtain ⟨hc, hidx⟩ := FileDecoder.Open.loop_ok codec firstMeta front.Size rest idx hl
          refine ⟨front, rest, firstMeta, rfl, hm, hc, not_not.mp h1, ?_, ?_, ?_⟩
          · omega
          · omega
          · rw [← h, hidx]
            simp [storedIndex, hm]
  · rintro ⟨front, rest, firstMeta, rfl, hm, hc, h1, h2, h3, rfl⟩
    unfold FileDecoder.Open
    simp only []
    rw [hm]
    simp only []
    rw [FileDecoder.Open.loop_of_consistent codec firstMeta front.Size rest hc]
    simp only []
    rw [if_neg (by simp [h1]), if_neg (by omega)]
    simp [storedIndex, hm]

/-- C3, as stated, fails: two share files that both carry metadata index 0 (K = 2, H = 3) are
accepted by `FileDecoder::Open`, which records the index vector `[0, 0]`. -/
theorem FileDecoder.Open_accepts_duplicate_indices :
    storedIndex codec3 share0 = storedIndex codec3 share0Again ∧
      ∃ d, FileDecoder.Open codec3 [share0, share0Again] parityFec = .ok d ∧
        d.fileIndices = [0, 0] :=
  ⟨rfl, _, rfl, rfl⟩

/-- C3, amended: on a list of at least K share files `FileDecoder::Open` does not compare
share indices.  It returns a handle exactly when the list is non-empty, the metadata of every
file can be read, every later file agrees with the first one in `required`, `excessBytes` and
size, the first file's `required` is K, its `excessBytes` is below `required` and its size is
at least H; the handle then holds at least K files and records the files' indices in list
order, repeated ones included. -/
theorem FileDecoder.Open_ignores_indices (codec : MetadataCodec) (files : List AbstractFile)
    (fec : FecWrapper) (hlen : fec.sharesRequired ≤ files.length) :
    ((∃ d, FileDecoder.Open codec files fec = .ok d) ↔
      ∃ front rest firstMeta, files = front :: rest ∧ ReadMetadata codec front = .ok firstMeta ∧
        (∀ f ∈ rest, ∃ m, ReadMetadata codec f = .ok m ∧ m.required = firstMeta.required ∧
          m.excessBytes = firstMeta.excessBytes ∧ f.Size = front.Size) ∧
        firstMeta.required = fec.sharesRequired ∧
        firstMeta.excessBytes < firstMeta.required ∧ (codec.size : Int) ≤ front.Size) ∧
      ∀ d, FileDecoder.Open codec files fec = .ok d →
        d.fileIndices = files.map (storedIndex codec) ∧
        d.fecWrapper.sharesRequired ≤ d.encodedFiles.length := by
  constructor
  · constructor
    · rintro ⟨d, hd⟩
      obtain ⟨front, rest, firstMeta, h1, h2, h3, h4, h5, h6, _⟩ :=
        (FileDecoder.Open_ok_iff codec files fec d).mp hd
      exact ⟨front, rest, firstMeta, h1, h2, h3, h4, h5, h6⟩
    · rintro ⟨front, rest, firstMeta, h1, h2, h3, h4, h5, h6⟩
      exact ⟨_, (FileDecoder.Open_ok_iff codec files fec _).mpr
        ⟨front, rest, firstMeta, h1, h2, h3, h4, h5, h6, rfl⟩⟩
  · intro d hd
    obtain ⟨front, rest, firstMeta, _, _, _, _, _, _, rfl⟩ :=
      (FileDecoder.Open_ok_iff codec files fec d).mp hd
    exact ⟨rfl, hlen⟩

/-- C3, amended, on the two files that both carry index 0 (K = 2): the list passes the
checks, and the handle records the index vector `[0, 0]`. -/
theorem FileDecoder.Open_ignores_indices_witness :
    ((∃ d, FileDecoder.Open codec3 [share0, share0Again] parityFec = .ok d) ↔
      ∃ front rest firstMeta, [share0, share0Again] = front :: rest ∧
        ReadMetadata codec3 front = .ok firstMeta ∧
        (∀ f ∈ rest, ∃ m, ReadMetadata codec3 f = .ok m ∧ m.required = firstMeta.required ∧
          m.excessBytes = firstMeta.excessBytes ∧ f.Size = front.Size) ∧
        firstMeta.required = parityFec.sharesRequired ∧
        firstMeta.excessBytes < firstMeta.required ∧ (codec3.size : Int) ≤ front.Size) ∧
      ∀ d, FileDecoder.Open codec3 [share0, share0Again] parityFec = .ok d →
        d.fileIndices = [share0, share0Again].map (storedIndex codec3) ∧
        d.fecWrapper.sharesRequired ≤ d.encodedFiles.length :=
  FileDecoder.Open_ignores_indices codec3 [share0, share0Again] parityFec (by decide)

/-- C4 at its failing input: with K = 2, `FileDecoder::Open` returns a handle for the
one-element list holding share 0 of `"abcde"`, and `Read(out, 5, 0)` on that handle then
indexes `encodedFiles[1]` outside the vector. -/
theorem FileDecoder.Open_accepts_too_few_files :
    ∃ d, FileDecoder.Open codec3 [share0] parityFec = .ok d ∧
      d.encodedFiles.length < d.fecWrapper.sharesRequired ∧
      ∀ fuel, FileDecoder.Read codec3 fuel d { readBuffers := [], workBuffer := [] }
        [0, 0, 0, 0, 0] 5 0 = .error .outOfBounds :=
  ⟨_, rfl, by decide, fun _ => rfl⟩

/-- C5: when the metadata of every file in the list can be read and some file's `required`
differs from K, or two files differ in `excessBytes`, or two files differ in size, then
`FileDecoder::Open` throws one of its four consistency exceptions and returns no handle.  The
premise speaks of arbitrary pairs of files, the code compares with the first file only. -/
theorem FileDecoder.Open_rejects_inconsistent (codec : MetadataCodec)
    (files : List AbstractFile) (fec : FecWrapper)
    (hread : ∀ f ∈ files, ∃ m, ReadMetadata codec f = .ok m)
    (hbad : (∃ f ∈ files, ∃ m, ReadMetadata codec f = .ok m ∧ m.required ≠ fec.sharesRequired) ∨
      (∃ f ∈ files, ∃ g ∈ files, ∃ m n, ReadMetadata codec f = .ok m ∧
        ReadMetadata codec g = .ok n ∧ m.excessBytes ≠ n.excessBytes) ∨
      (∃ f ∈ files, ∃ g ∈ files, f.Size ≠ g.Size)) :
    (¬ ∃ d, FileDecoder.Open codec files fec = .ok d) ∧
      (FileDecoder.Open codec files fec = .error .inconsistentRequired ∨
        FileDecoder.Open codec files fec = .error .inconsistentExcessBytes ∨
        FileDecoder.Open codec files fec = .error .inconsistentFileSizes ∨
        FileDecoder.Open codec files fec = .error .requiredNotConsistentWithFilesystem) := by
  have hno : ¬ ∃ d, FileDecoder.Open codec files fec = .ok d := by
    rintro ⟨d, hd⟩
    obtain ⟨front, rest, firstMeta, rfl, hm, hc, h4, _, _, _⟩ :=
      (FileDecoder.Open_ok_iff codec files fec d).mp hd
    have hall : ∀ f ∈ front :: rest, ∃ m, ReadMetadata codec f = .ok m ∧
        m.required = firstMeta.required ∧ m.excessBytes = firstMeta.excessBytes ∧
        f.Size = front.Size := by
      intro f hf
      rcases List.mem_cons.mp hf with rfl | hf
      · exact ⟨firstMeta, hm, rfl, rfl, rfl⟩
      · exact hc f hf
    rcases hbad with ⟨f, hf, m, hfm, hne⟩ | ⟨f, hf, g, hg, m, n, hfm, hgn, hne⟩ | ⟨f, hf, g, hg, hne⟩
    · obtain ⟨m2, hm2, hr, _, _⟩ := hall f hf
      rw [hfm] at hm2
      cases hm2
      exact hne (hr.trans h4)
    · obtain ⟨m2, hm2, _, he, _⟩ := hall f hf
      obtain ⟨n2, hn2, _, he2, _⟩ := hall g hg
      rw [hfm] at hm2
      rw [hgn] at hn2
      cases hm2
      cases hn2
      exact hne (he.trans he2.symm)
    · obtain ⟨_, _, _, _, hs⟩ := hall f hf
      obtain ⟨_, _, _, _, hs2⟩ := hall g hg
      exact hne (hs.trans hs2.symm)
  refine ⟨hno, ?_⟩
  cases files with
  | nil =>
    rcases hbad with ⟨f, hf, _⟩ | ⟨f, hf, _⟩ | ⟨f, hf, _⟩ <;> cases hf
  | cons front rest =>
    obtain ⟨firstMeta, hm⟩ := hread front (List.mem_cons_self _ _)
    cases hl : FileDecoder.Open.loop codec firstMeta front.Size rest with
    | error e =>
      have hopen : FileDecoder.Open codec (front :: rest) fec = .error e := by
        unfold FileDecoder.Open
        simp only []
        rw [hm]
        simp only []
        rw [hl]
      rcases FileDecoder.Open.loop_error codec firstMeta front.Size rest e
          (fun f hf => hread f (List.mem_cons_of_mem _ hf)) hl with rfl | rfl | rfl
      · exact Or.inl hopen
      · exact Or.inr (Or.inl hopen)
      · exact Or.inr (Or.inr (Or.inl hopen))
    | ok idx =>
      right; right; right
      by_cases hreq : firstMeta.required = fec.sharesRequired
      · exfalso
        obtain ⟨hc, _⟩ := FileDecoder.Open.loop_ok codec firstMeta front.Size rest idx hl
        unfold FileDecoder.Open at hno
        simp only [] at hno
        rw [hm] at hno
        simp only [] at hno
        rw [hl] at hno
        simp only [] at hno
        rw [if_neg (by simp [hreq])] at hno
        by_cases hinv : firstMeta.excessBytes ≥ firstMeta.required ∨ front.Size < (codec.size : Int)
        · rw [if_pos hinv] at hno
          -- the list is consistent with its first file, so it cannot be inconsistent
          have hall : ∀ f ∈ front :: rest, ∃ m, ReadMetadata codec f = .ok m ∧
              m.required = firstMeta.required ∧ m.excessBytes = firstMeta.excessBytes ∧
              f.Size = front.Size := by
            intro f hf
            rcases List.mem_cons.mp hf with rfl | hf
            · exact ⟨firstMeta, hm, rfl, rfl, rfl⟩
            · exact hc f hf
          rcases hbad with ⟨f, hf, m, hfm, hne⟩ | ⟨f, hf, g, hg, m, n, hfm, hgn, hne⟩ |
            ⟨f, hf, g, hg, hne⟩
          · obtain ⟨m2, hm2, hr, _, _⟩ := hall f hf
            rw [hfm] at hm2
            cases hm2
            exact hne (hr.trans hreq)
          · obtain ⟨m2, hm2, _, he, _⟩ := hall f hf
            obtain ⟨n2, hn2, _, he2, _⟩ := hall g hg
            rw [hfm] at hm2
            rw [hgn] at hn2
            cases hm2
            cases hn2
            exact hne (he.trans he2.symm)
          · obtain ⟨_, _, _, _, hs⟩ := hall f hf
            obtain ⟨_, _, _, _, hs2⟩ := hall g hg
            exact hne (hs.trans hs2.symm)
        · rw [if_neg hinv] at hno
          exact hno ⟨_, rfl⟩
      · unfold FileDecoder.Open
        simp only []
        rw [hm]
        simp only []
        rw [hl]
        simp only []
        rw [if_pos (by simpa using hreq)]

/-- C5 on a concrete list: shares 0 and 1 of `"abcde"` where the second header says
`required = 3` while K = 2. -/
theorem FileDecoder.Open_rejects_inconsistent_witness :
    (¬ ∃ d, FileDecoder.Open codec3 [share0, share1Required3] parityFec = .ok d) ∧
      (FileDecoder.Open codec3 [share0, share1Required3] parityFec
          = .error .inconsistentRequired ∨
        FileDecoder.Open codec3 [share0, share1Required3] parityFec
          = .error .inconsistentExcessBytes ∨
        FileDecoder.Open codec3 [share0, share1Required3] parityFec
          = .error .inconsistentFileSizes ∨
        FileDecoder.Open codec3 [share0, share1Required3] parityFec
          = .error .requiredNotConsistentWithFilesystem) :=
  FileDecoder.Open_rejects_inconsistent codec3 [share0, share1Required3] parityFec
    (by
      intro f hf
      simp only [List.mem_cons, List.mem_singleton, List.not_mem_nil, or_false] at hf
      rcases hf with rfl | rfl
      · exact ⟨_, rfl⟩
      · exact ⟨_, rfl⟩)
    (Or.inl ⟨share1Required3, by simp, ⟨3, 1, 1⟩, rfl, by decide⟩)

/-! ## `FileDecoder::NormalizeIndices` -/

theorem swapAt_eq_some {α : Type} (v : List α) (i j : Nat) (hi : i < v.length)
    (hj : j < v.length) : ∃ w, swapAt v i j = some w := by
  simp [swapAt, List.getElem?_eq_getElem hi, List.getElem?_eq_getElem hj]

theorem swapAt_spec {α : Type} (v w : List α) (i j : Nat) (h : swapAt v i j = some w) :
    w.length = v.length ∧ ∀ k, w[k]? = v[Equiv.swap i j k]? := by
  unfold swapAt at h
  cases hi : v[i]? with
  | none => simp [hi] at h
  | some a =>
    cases hj : v[j]? with
    | none => simp [hi, hj] at h
    | some b =>
      simp only [hi, hj, Option.some.injEq] at h
      subst h
      have hil : i < v.length := (List.getElem?_eq_some.mp hi).1
      have hjl : j < v.length := (List.getElem?_eq_some.mp hj).1
      refine ⟨by simp, fun k => ?_⟩
      rw [Equiv.swap_apply_def, List.getElem?_set, List.getElem?_set, List.length_set]
      by_cases hkj : j = k
      · subst hkj
        by_cases hki : j = i
        · subst hki
          simp [hjl, hi]
        · simp [hjl, hki, hi]
      · by_cases hki : i = k
        · subst hki
          simp [hkj, hil, hj]
        · have h1 : ¬ k = i := fun h => hki h.symm
          have h2 : ¬ k = j := fun h => hkj h.symm
          simp [hkj, hki, h1, h2]

theorem Rearranged.refl {α : Type} (K : Nat) (ptrs : List α) (indices : List Nat) :
    Rearranged K ptrs indices ptrs indices :=
  ⟨Equiv.refl Nat, fun _ _ => rfl, fun _ => rfl, fun _ => rfl⟩

theorem Rearranged.lt {α : Type} {K : Nat} {ptrs ptrs1 : List α} {indices indices1 : List Nat}
    (h : Rearranged K ptrs indices ptrs1 indices1) (s : Nat) (hs : s < K) :
    ∃ t, t < K ∧ indices1[s]? = indices[t]? ∧ ptrs1[s]? = ptrs[t]? := by
  obtain ⟨τ, hfix, hI, hP⟩ := h
  refine ⟨τ s, ?_, hI s, hP s⟩
  by_contra hge
  have h1 : τ (τ s) = τ s := hfix (τ s) (by omega)
  have h2 : τ s = s := τ.injective h1
  omega

theorem NormInv.step_advance {α : Type} {K i : Nat} {ptrs : List α} {indices : List Nat}
    (h : NormInv K i ptrs indices) (x : Nat) (hx : indices[i]? = some x)
    (hno : ¬ (x < K ∧ x ≠ i)) : NormInv K (i + 1) ptrs indices := by
  refine ⟨h.lenI, h.lenP, h.inj, h.small, ?_⟩
  intro j hj y hy hyK
  rcases Nat.lt_succ_iff_lt_or_eq.mp hj with hlt | rfl
  · exact h.fixed j hlt y hy hyK
  · rw [hx] at hy
    cases hy
    by_contra hne
    exact hno ⟨hyK, hne⟩

theorem NormInv.step_swap {α : Type} {K i : Nat} {ptrs ptrs1 : List α}
    {indices indices1 : List Nat} (h : NormInv K i ptrs indices) (x : Nat)
    (hx : indices[i]? = some x) (hiK : i < K) (hxK : x < K) (hxi : x ≠ i)
    (hI : swapAt indices i x = some indices1) (hP : swapAt ptrs i x = some ptrs1) :
    NormInv K i ptrs1 indices1 ∧ Rearranged K ptrs indices ptrs1 indices1 ∧
      (nonFixed K indices1).card < (nonFixed K indices).card := by
  obtain ⟨hlenI, hgetI⟩ := swapAt_spec indices indices1 i x hI
  obtain ⟨hlenP, hgetP⟩ := swapAt_spec ptrs ptrs1 i x hP
  have hnew_x : indices1[x]? = some x := by
    rw [hgetI, Equiv.swap_apply_right]; exact hx
  have hold_x : indices[x]? ≠ some x := fun hc => hxi (h.inj x i x hc hx)
  refine ⟨⟨by rw [hlenI]; exact h.lenI, by rw [hlenP]; exact h.lenP, ?_, ?_, ?_⟩, ?_, ?_⟩
  · intro a b y ha hb
    rw [hgetI] at ha hb
    exact (Equiv.swap i x).injective (h.inj _ _ y ha hb)
  · intro a y ha
    rw [hgetI] at ha
    exact h.small _ y ha
  · intro j hj y hy hyK
    by_cases hjx : j = x
    · subst hjx
      rw [hnew_x] at hy
      cases hy
      rfl
    · have hji : j ≠ i := by omega
      rw [hgetI, Equiv.swap_apply_of_ne_of_ne hji hjx] at hy
      exact h.fixed j hj y hy hyK
  · refine ⟨Equiv.swap i x, ?_, hgetI, hgetP⟩
    intro s hs
    exact Equiv.swap_apply_of_ne_of_ne (by omega) (by omega)
  · apply Finset.card_lt_card
    rw [Finset.ssubset_iff_of_subset]
    · refine ⟨x, ?_, ?_⟩
      · simp only [nonFixed, Finset.mem_filter, Finset.mem_range]
        exact ⟨hxK, hold_x⟩
      · simp only [nonFixed, Finset.mem_filter, Finset.mem_range, not_and, not_not]
        exact fun _ => hnew_x
    · intro j hj
      simp only [nonFixed, Finset.mem_filter, Finset.mem_range] at hj ⊢
      refine ⟨hj.1, ?_⟩
      by_cases hjx : j = x
      · subst hjx; exact absurd hnew_x hj.2
      · by_cases hji : j = i
        · subst hji
          rw [hx]
          intro hc
          cases hc
          exact hxi rfl
        · have := hj.2
          rwa [hgetI, Equiv.swap_apply_of_ne_of_ne hji hjx] at this

theorem FileDecoder.NormalizeIndices.loop_spec {α : Type} (K : Nat) :
    ∀ (m fuel i : Nat) (ptrs : List α) (indices : List Nat),
      NormInv K i ptrs indices → i ≤ K → (nonFixed K indices).card + (K - i) ≤ m → m < fuel →
      ∃ ptrs1 indices1,
        FileDecoder.NormalizeIndices.loop K fuel i ptrs indices = .ok (ptrs1, indices1) ∧
        NormInv K K ptrs1 indices1 ∧ Rearranged K ptrs indices ptrs1 indices1 := by
  intro m
  induction m with
  | zero =>
    intro fuel i ptrs indices hinv hiK hm hfuel
    obtain ⟨f, rfl⟩ : ∃ f, fuel = f + 1 := ⟨fuel - 1, by omega⟩
    have hi : i = K := by omega
    subst hi
    refine ⟨ptrs, indices, ?_, hinv, Rearranged.refl _ _ _⟩
    rw [FileDecoder.NormalizeIndices.loop, if_neg (lt_irrefl _)]
  | succ m ih =>
    intro fuel i ptrs indices hinv hiK hm hfuel
    obtain ⟨f, rfl⟩ : ∃ f, fuel = f + 1 := ⟨fuel - 1, by omega⟩
    by_cases hlt : i < K
    · have hil : i < indices.length := lt_of_lt_of_le hlt hinv.lenI
      have hx : indices[i]? = some indices[i] := List.getElem?_eq_getElem hil
      have hsmall : indices[i] % 256 = indices[i] := Nat.mod_eq_of_lt (hinv.small i _ hx)
      rw [FileDecoder.NormalizeIndices.loop, if_pos hlt, hx]
      simp only [hsmall]
      by_cases hc : indices[i] < K ∧ indices[i] ≠ i
      · rw [if_pos hc]
        have hxl : indices[i] < indices.length := lt_of_lt_of_le hc.1 hinv.lenI
        have hy : indices[indices[i]]? = some indices[indices[i]] :=
          List.getElem?_eq_getElem hxl
        have hne : indices[indices[i]] ≠ indices[i] := by
          intro heq
          rw [heq] at hy
          exact hc.2 (hinv.inj _ _ _ hy hx)
        rw [hy]
        simp only []
        rw [if_pos hne]
        obtain ⟨indices1, hI⟩ := swapAt_eq_some indices i indices[i] hil hxl
        obtain ⟨ptrs1, hP⟩ := swapAt_eq_some ptrs i indices[i]
          (lt_of_lt_of_le hlt hinv.lenP) (lt_of_lt_of_le hc.1 hinv.lenP)
        rw [hI, hP]
        simp only []
        obtain ⟨hinv1, hre1, hcard⟩ := hinv.step_swap indices[i] hx hlt hc.1 hc.2 hI hP
        obtain ⟨ptrs2, indices2, hrun, hinv2, hre2⟩ :=
          ih f i ptrs1 indices1 hinv1 hiK (by omega) (by omega)
        refine ⟨ptrs2, indices2, hrun, hinv2, ?_⟩
        obtain ⟨τ1, hfix1, hI1, hP1⟩ := hre1
        obtain ⟨τ2, hfix2, hI2, hP2⟩ := hre2
        refine ⟨τ2.trans τ1, ?_, ?_, ?_⟩
        · intro s hs
          rw [Equiv.trans_apply, hfix2 s hs, hfix1 s hs]
        · intro s
          rw [Equiv.trans_apply, hI2, hI1]
        · intro s
          rw [Equiv.trans_apply, hP2, hP1]
      · rw [if_neg hc]
        exact ih f (i + 1) ptrs indices (hinv.step_advance indices[i] hx hc) (by omega)
          (by omega) (by omega)
    · have hi : i = K := by omega
      subst hi
      refine ⟨ptrs, indices, ?_, hinv, Rearranged.refl _ _ _⟩
      rw [FileDecoder.NormalizeIndices.loop, if_neg (lt_irrefl _)]

theorem nonFixed_card_le (K : Nat) (indices : List Nat) : (nonFixed K indices).card ≤ K := by
  unfold nonFixed
  calc ((Finset.range K).filter _).card ≤ (Finset.range K).card := Finset.card_filter_le _ _
    _ = K := Finset.card_range K

theorem NormInv.init {α : Type} (K : Nat) (ptrs : List α) (indices : List Nat)
    (hlenI : K ≤ indices.length) (hlenP : K ≤ ptrs.length) (hnd : indices.Nodup)
    (hsmall : ∀ x ∈ indices, x < 256) : NormInv K 0 ptrs indices := by
  refine ⟨hlenI, hlenP, ?_, ?_, ?_⟩
  · intro a b x ha hb
    obtain ⟨ha1, ha2⟩ := List.getElem?_eq_some.mp ha
    obtain ⟨hb1, hb2⟩ := List.getElem?_eq_some.mp hb
    exact (List.Nodup.getElem_inj_iff hnd).mp (ha2.trans hb2.symm)
  · intro a x ha
    exact hsmall x (List.getElem?_mem ha)
  · intro j hj
    omega

/-- What `FileDecoder::NormalizeIndices` returns on distinct byte-sized indices: it ends
within `2 · K + 1` evaluations of the loop condition, every slot below K that holds a
systematic index holds its own index, and slot contents were only moved together. -/
theorem FileDecoder.NormalizeIndices_spec {α : Type} (K fuel : Nat) (ptrs : List α)
    (indices : List Nat) (hlenI : K ≤ indices.length) (hlenP : K ≤ ptrs.length)
    (hnd : indices.Nodup) (hsmall : ∀ x ∈ indices, x < 256) (hfuel : 2 * K < fuel) :
    ∃ ptrs1 indices1,
      FileDecoder.NormalizeIndices K fuel ptrs indices = .ok (ptrs1, indices1) ∧
      NormInv K K ptrs1 indices1 ∧ Rearranged K ptrs indices ptrs1 indices1 := by
  have hc := nonFixed_card_le K indices
  exact FileDecoder.NormalizeIndices.loop_spec K (2 * K) fuel 0 ptrs indices
    (NormInv.init K ptrs indices hlenI hlenP hnd hsmall) (Nat.zero_le _) (by omega) hfuel

theorem FileDecoder.NormalizeIndices.loop_stuck {α : Type} (p q : α) :
    ∀ fuel, FileDecoder.NormalizeIndices.loop 2 fuel 1 [p, q] [0, 0] = .error .outOfFuel := by
  intro fuel
  induction fuel with
  | zero => rfl
  | succ f ih =>
    rw [FileDecoder.NormalizeIndices.loop]
    simpa using ih

/-! ## Buffers -/

theorem resize_length {α : Type} (v : List α) (n : Nat) (fill : α) :
    (resize v n fill).length = n := by
  simp only [resize, List.length_append, List.length_take, List.length_replicate]
  omega

theorem store_length (buffer data : List Nat) : (store buffer data).length = buffer.length := by
  simp only [store, List.length_append, List.length_take, List.length_drop]
  omega

theorem store_getElem? (buffer data : List Nat) (p : Nat) (hp : p < data.length)
    (hb : p < buffer.length) : (store buffer data)[p]? = data[p]? := by
  unfold store
  rw [List.getElem?_append_left (by simp; omega), List.getElem?_take_of_lt hb]

/-! ## The read loop of `FileDecoder::Read` -/

theorem FileDecoder.Read.readShares_spec (files : List AbstractFile)
    (bytesToRead off K : Nat) (bufs : List (List Nat)) (hfiles : K ≤ files.length)
    (hbufs : bufs.length = K) :
    ∃ bufs1 mbr,
      FileDecoder.Read.readShares files bytesToRead off K bufs = .ok (bufs1, mbr) ∧
      bufs1.length = K ∧
      (∀ i, i < K → ∃ f old, files[i]? = some f ∧ bufs[i]? = some old ∧
        bufs1[i]? = some (store (resize old bytesToRead 0) (f.Read bytesToRead off))) ∧
      mbr ≤ bytesToRead ∧
      (∀ i, i < K → ∀ f, files[i]? = some f → mbr ≤ (f.Read bytesToRead off).length) ∧
      (mbr = bytesToRead ∨
        ∃ i, i < K ∧ ∃ f, files[i]? = some f ∧ mbr = (f.Read bytesToRead off).length) := by
  unfold FileDecoder.Read.readShares
  have key : ∀ k, k ≤ K → ∃ bufs1 mbr,
      (List.range k).foldlM
        (fun (st : List (List Nat) × Nat) (i : Nat) =>
          match files[i]?, st.1[i]? with
          | some file, some buffer =>
            (Except.ok (st.1.set i (store (resize buffer bytesToRead 0)
              (file.Read bytesToRead off)), min st.2 (file.Read bytesToRead off).length) :
              Except Failure (List (List Nat) × Nat))
          | _, _ => .error .outOfBounds)
        (bufs, bytesToRead) = .ok (bufs1, mbr) ∧
      bufs1.length = K ∧
      (∀ i, i < k → ∃ f old, files[i]? = some f ∧ bufs[i]? = some old ∧
        bufs1[i]? = some (store (resize old bytesToRead 0) (f.Read bytesToRead off))) ∧
      (∀ i, k ≤ i → bufs1[i]? = bufs[i]?) ∧
      mbr ≤ bytesToRead ∧
      (∀ i, i < k → ∀ f, files[i]? = some f → mbr ≤ (f.Read bytesToRead off).length) ∧
      (mbr = bytesToRead ∨
        ∃ i, i < k ∧ ∃ f, files[i]? = some f ∧ mbr = (f.Read bytesToRead off).length) := by
    intro k
    induction k with
    | zero =>
      intro _
      exact ⟨bufs, bytesToRead, rfl, hbufs, fun i hi => absurd hi (Nat.not_lt_zero _),
        fun _ _ => rfl, le_refl _, fun i hi => absurd hi (Nat.not_lt_zero _), Or.inl rfl⟩
    | succ k ih =>
      intro hk
      obtain ⟨b, m, hrun, hlen, hdone, hrest, hle, hmin, hatt⟩ := ih (by omega)
      have hkf : k < files.length := by omega
      have hkb : k < b.length := by omega
      have hbk : b[k]? = bufs[k]? := hrest k (le_refl _)
      have hbufk : bufs[k]? = some bufs[k] := List.getElem?_eq_getElem (by omega)
      refine ⟨b.set k (store (resize bufs[k] bytesToRead 0) (files[k].Read bytesToRead off)),
        min m (files[k].Read bytesToRead off).length, ?_, ?_, ?_, ?_, ?_, ?_, ?_⟩
      · rw [List.range_succ, List.foldlM_append, hrun]
        simp only [List.foldlM_cons, List.foldlM_nil]
        show (match files[k]?, b[k]? with
          | some file, some buffer =>
            (Except.ok (b.set k (store (resize buffer bytesToRead 0)
              (file.Read bytesToRead off)), min m (file.Read bytesToRead off).length) :
              Except Failure (List (List Nat) × Nat))
          | _, _ => .error .outOfBounds) >>= pure = _
        rw [List.getElem?_eq_getElem hkf, hbk, hbufk]
        rfl
      · simp [hlen]
      · intro i hi
        rcases Nat.lt_succ_iff_lt_or_eq.mp hi with hlt | rfl
        · obtain ⟨f, old, h1, h2, h3⟩ := hdone i hlt
          refine ⟨f, old, h1, h2, ?_⟩
          rw [List.getElem?_set_ne (by omega)]
          exact h3
        · refine ⟨files[i], bufs[i], List.getElem?_eq_getElem hkf, hbufk, ?_⟩
          rw [List.getElem?_set, if_pos rfl, if_pos hkb]
      · intro i hi
        rw [List.getElem?_set_ne (by omega)]
        exact hrest i (by omega)
      · exact le_trans (min_le_left _ _) hle
      · intro i hi f hf
        rcases Nat.lt_succ_iff_lt_or_eq.mp hi with hlt | rfl
        · exact le_trans (min_le_left _ _) (hmin i hlt f hf)
        · rw [List.getElem?_eq_getElem hkf] at hf
          cases hf
          exact min_le_right _ _
      · rcases le_total m (files[k].Read bytesToRead off).length with hml | hml
        · rw [min_eq_left hml]
          rcases hatt with h | ⟨i, hi, f, hf, hm⟩
          · exact Or.inl h
          · exact Or.inr ⟨i, by omega, f, hf, hm⟩
        · rw [min_eq_right hml]
          exact Or.inr ⟨k, by omega, files[k], List.getElem?_eq_getElem hkf, rfl⟩
  obtain ⟨b, m, hrun, hlen, hdone, _, hle, hmin, hatt⟩ := key K (le_refl _)
  exact ⟨b, m, hrun, hlen, hdone, hle, hmin, hatt⟩

/-! ## `FileDecoder::CopyToNthElement` -/

theorem stride_step (K d : Nat) (hK : 0 < K) (hd : d ≠ 0) :
    (d % K = 0 ↔ K ≤ d ∧ (d - K) % K = 0) ∧ (K ≤ d → d / K = (d - K) / K + 1) := by
  constructor
  · constructor
    · intro h
      have hKd : K ≤ d := by
        by_contra hlt
        rw [Nat.mod_eq_of_lt (by omega)] at h
        exact hd h
      exact ⟨hKd, by rw [← Nat.mod_eq_sub_mod hKd]; exact h⟩
    · rintro ⟨hKd, h⟩
      rw [Nat.mod_eq_sub_mod hKd]; exact h
  · intro hKd
    exact Nat.div_eq_sub_div hK hKd

theorem FileDecoder.CopyToNthElement_spec (src : List Nat) (K n : Nat) (hK : 0 < K) :
    ∀ (fuel : Nat) (buf : List Nat) (out inp : Nat), n ≤ buf.length →
      (∀ t, out + t * K < n → inp + t < src.length) → n - out < fuel →
      ∃ buf1, FileDecoder.CopyToNthElement fuel buf out n src inp K = .ok buf1 ∧
        buf1.length = buf.length ∧
        ∀ q, buf1[q]? =
          if out ≤ q ∧ q < n ∧ (q - out) % K = 0 then src[inp + (q - out) / K]? else buf[q]? := by
  intro fuel
  induction fuel with
  | zero => intro buf out inp _ _ hf; omega
  | succ f ih =>
    intro buf out inp hn hsrc hf
    rw [FileDecoder.CopyToNthElement]
    by_cases hlt : out < n
    · rw [if_pos hlt]
      have h0 : inp < src.length := by
        have := hsrc 0 (by simpa using hlt)
        simpa using this
      rw [List.getElem?_eq_getElem h0]
      simp only []
      rw [if_pos (by omega : out < buf.length)]
      obtain ⟨buf1, hrun, hlen, hget⟩ := ih (buf.set out src[inp]) (out + K) (inp + 1)
        (by simpa using hn)
        (by
          intro t ht
          have := hsrc (t + 1) (by rw [Nat.succ_mul]; omega)
          omega)
        (by omega)
      refine ⟨buf1, hrun, by simpa using hlen, ?_⟩
      intro q
      rw [hget q]
      by_cases hq : q = out
      · subst hq
        rw [if_neg (by omega), if_pos ⟨le_refl _, hlt, by simp⟩]
        simp [List.getElem?_set, List.getElem?_eq_getElem h0]
        omega
      · rw [List.getElem?_set_ne (fun h => hq h.symm)]
        by_cases hle : out ≤ q
        · have hd : q - out ≠ 0 := by omega
          obtain ⟨hiff, hdiv⟩ := stride_step K (q - out) hK hd
          have e1 : q - (out + K) = q - out - K := by omega
          by_cases hc : out + K ≤ q ∧ q < n ∧ (q - (out + K)) % K = 0
          · have hc2 : out ≤ q ∧ q < n ∧ (q - out) % K = 0 :=
              ⟨hle, hc.2.1, hiff.mpr ⟨by omega, by rw [← e1]; exact hc.2.2⟩⟩
            rw [if_pos hc, if_pos hc2, e1, hdiv (by omega)]
            congr 1
            omega
          · have hc2 : ¬ (out ≤ q ∧ q < n ∧ (q - out) % K = 0) := by
              rintro ⟨_, h2, h3⟩
              obtain ⟨h4, h5⟩ := hiff.mp h3
              exact hc ⟨by omega, h2, by rw [e1]; exact h5⟩
            rw [if_neg hc, if_neg hc2]
        · rw [if_neg (by omega), if_neg (by omega)]
    · rw [if_neg hlt]
      refine ⟨buf, rfl, rfl, ?_⟩
      intro q
      rw [if_neg (by omega)]

/-! ## Columns and rows of the interleave -/

/-- Column `k` starts at output position `k - oc` (or `k + K - oc` when `k < oc`) and then
takes every `K`-th position: these are the positions `q` with `(q + oc) % K = k`, and the
byte for position `q` is the one at row `(q + oc) / K` of the column. -/
theorem column_positions (K oc k q : Nat) (hoc : oc < K) (hk : k < K) :
    ((if k < oc then k + K - oc else k - oc) ≤ q ∧
        (q - (if k < oc then k + K - oc else k - oc)) % K = 0 ↔ (q + oc) % K = k) ∧
      ((q + oc) % K = k →
        (if k < oc then 1 else 0) + (q - (if k < oc then k + K - oc else k - oc)) / K
          = (q + oc) / K) := by
  have hK : 0 < K := by omega
  have hdm := Nat.div_add_mod (q + oc) K
  by_cases hko : k < oc
  · simp only [if_pos hko]
    constructor
    · constructor
      · rintro ⟨hle, hmod⟩
        obtain ⟨b, hb⟩ := Nat.dvd_of_mod_eq_zero hmod
        have e : q + oc = k + K * (b + 1) := by rw [Nat.mul_succ]; omega
        rw [e, Nat.add_mul_mod_self_left, Nat.mod_eq_of_lt hk]
      · intro h
        rw [h] at hdm
        generalize (q + oc) / K = a at hdm
        cases a with
        | zero => omega
        | succ a =>
          rw [Nat.mul_succ] at hdm
          refine ⟨by omega, ?_⟩
          have e : q - (k + K - oc) = K * a := by omega
          rw [e, Nat.mul_mod_right]
    · intro h
      rw [h] at hdm
      generalize (q + oc) / K = a at hdm
      cases a with
      | zero => omega
      | succ a =>
        rw [Nat.mul_succ] at hdm
        have e : q - (k + K - oc) = K * a := by omega
        rw [e, Nat.mul_div_cancel_left _ hK]
        omega
  · simp only [if_neg hko]
    constructor
    · constructor
      · rintro ⟨hle, hmod⟩
        obtain ⟨b, hb⟩ := Nat.dvd_of_mod_eq_zero hmod
        have e : q + oc = k + K * b := by omega
        rw [e, Nat.add_mul_mod_self_left, Nat.mod_eq_of_lt hk]
      · intro h
        rw [h] at hdm
        generalize (q + oc) / K = a at hdm
        refine ⟨by omega, ?_⟩
        have e : q - (k - oc) = K * a := by omega
        rw [e, Nat.mul_mod_right]
    · intro h
      rw [h] at hdm
      generalize (q + oc) / K = a at hdm
      have e : q - (k - oc) = K * a := by omega
      rw [e, Nat.mul_div_cancel_left _ hK]
      omega

/-! ## The interleave loop of `FileDecoder::Read` -/

theorem FileDecoder.Read.interleave_step (fuel K oc n mbr k : Nat) (dec buf b : List Nat)
    (D : Nat → List Nat) (hoc : oc < K) (hk : k < K) (hn : n ≤ b.length) (hfuel : n < fuel)
    (hrows : n + oc ≤ mbr * K) (hdec : mbr ≤ dec.length) (hD : D k = dec)
    (hb : ∀ q, b[q]? = if q < n ∧ (q + oc) % K < k then (D ((q + oc) % K))[(q + oc) / K]?
      else buf[q]?) :
    ∃ b1, (if k < oc then FileDecoder.CopyToNthElement fuel b (k + K - oc) n dec 1 K
        else FileDecoder.CopyToNthElement fuel b (k - oc) n dec 0 K) = .ok b1 ∧
      b1.length = b.length ∧
      ∀ q, b1[q]? = if q < n ∧ (q + oc) % K < k + 1 then (D ((q + oc) % K))[(q + oc) / K]?
        else buf[q]? := by
  have hK : 0 < K := by omega
  have hcp := fun q => column_positions K oc k q hoc hk
  have hgoal : ∀ start inp : Nat,
      (∀ q, (start ≤ q ∧ (q - start) % K = 0 ↔ (q + oc) % K = k) ∧
        ((q + oc) % K = k → inp + (q - start) / K = (q + oc) / K)) →
      ∃ b1, FileDecoder.CopyToNthElement fuel b start n dec inp K = .ok b1 ∧
        b1.length = b.length ∧
        ∀ q, b1[q]? = if q < n ∧ (q + oc) % K < k + 1 then (D ((q + oc) % K))[(q + oc) / K]?
          else buf[q]? := by
    intro start inp hcp
    have hsrc : ∀ t, start + t * K < n → inp + t < dec.length := by
      intro t ht
      obtain ⟨hiff, hrow⟩ := hcp (start + t * K)
      have e : start + t * K - start = t * K := Nat.add_sub_cancel_left _ _
      rw [e] at hiff hrow
      have hcol := hiff.mp ⟨Nat.le_add_right _ _, Nat.mul_mod_left t K⟩
      have h2 := hrow hcol
      rw [Nat.mul_div_cancel _ hK] at h2
      have h3 : (start + t * K + oc) / K < mbr :=
        Nat.div_lt_of_lt_mul (by have := Nat.mul_comm mbr K; omega)
      omega
    obtain ⟨b1, hrun, hlen, hget⟩ := FileDecoder.CopyToNthElement_spec dec K n hK fuel b
      start inp hn hsrc (by omega)
    refine ⟨b1, hrun, hlen, ?_⟩
    intro q
    rw [hget q, hb q]
    obtain ⟨hiff, hrow⟩ := hcp q
    by_cases hqn : q < n
    · by_cases hcol : (q + oc) % K = k
      · have hc := hiff.mpr hcol
        have h1 : start ≤ q ∧ q < n ∧ (q - start) % K = 0 := ⟨hc.1, hqn, hc.2⟩
        have h2 : q < n ∧ (q + oc) % K < k + 1 := ⟨hqn, by omega⟩
        rw [if_pos h1, if_pos h2, hrow hcol, hcol, hD]
      · have h1 : ¬ (start ≤ q ∧ q < n ∧ (q - start) % K = 0) :=
          fun h => hcol (hiff.mp ⟨h.1, h.2.2⟩)
        rw [if_neg h1]
        by_cases hlt : (q + oc) % K < k
        · have h2 : q < n ∧ (q + oc) % K < k := ⟨hqn, hlt⟩
          have h3 : q < n ∧ (q + oc) % K < k + 1 := ⟨hqn, by omega⟩
          rw [if_pos h2, if_pos h3]
        · have h2 : ¬ (q < n ∧ (q + oc) % K < k) := fun h => hlt h.2
          have h3 : ¬ (q < n ∧ (q + oc) % K < k + 1) := fun h => by omega
          rw [if_neg h2, if_neg h3]
    · have h1 : ¬ (start ≤ q ∧ q < n ∧ (q - start) % K = 0) := fun h => hqn h.2.1
      have h2 : ¬ (q < n ∧ (q + oc) % K < k) := fun h => hqn h.1
      have h3 : ¬ (q < n ∧ (q + oc) % K < k + 1) := fun h => hqn h.1
      rw [if_neg h1, if_neg h2, if_neg h3]
  by_cases hko : k < oc
  · rw [if_pos hko]
    simp only [if_pos hko] at hcp
    exact hgoal _ _ hcp
  · rw [if_neg hko]
    simp only [if_neg hko] at hcp
    exact hgoal _ _ hcp

theorem FileDecoder.Read.interleave_spec (fuel K oc n mbr : Nat) (indices : List Nat)
    (inPtrs outPtrs : List (List Nat)) (buf : List Nat) (hoc : oc < K) (hn : n ≤ buf.length)
    (hfuel : n < fuel) (hrows : n + oc ≤ mbr * K) (hI : K ≤ indices.length)
    (hP : K ≤ inPtrs.length) (hO : K ≤ outPtrs.length)
    (hdec : ∀ i, i < K → mbr ≤ (FileDecoder.Read.decoded K indices inPtrs outPtrs i).length) :
    ∃ buf1, FileDecoder.Read.interleave fuel K oc n indices inPtrs outPtrs buf = .ok buf1 ∧
      buf1.length = buf.length ∧
      ∀ q, buf1[q]? = if q < n then
          (FileDecoder.Read.decoded K indices inPtrs outPtrs ((q + oc) % K))[(q + oc) / K]?
        else buf[q]? := by
  have hK : 0 < K := by omega
  unfold FileDecoder.Read.interleave
  have key : ∀ k, k ≤ K → ∃ b,
      (List.range k).foldlM
        (fun (outBuffer : List Nat) (i : Nat) =>
          match indices[i]?, inPtrs[i]?, outPtrs[i]? with
          | some index, some inBlock, some outBlock =>
            if i < oc then
              FileDecoder.CopyToNthElement fuel outBuffer (i + K - oc) n
                (if index < K then inBlock else outBlock) 1 K
            else
              FileDecoder.CopyToNthElement fuel outBuffer (i - oc) n
                (if index < K then inBlock else outBlock) 0 K
          | _, _, _ => .error .outOfBounds)
        buf = .ok b ∧
      b.length = buf.length ∧
      ∀ q, b[q]? = if q < n ∧ (q + oc) % K < k then
          (FileDecoder.Read.decoded K indices inPtrs outPtrs ((q + oc) % K))[(q + oc) / K]?
        else buf[q]? := by
    intro k
    induction k with
    | zero =>
      intro _
      refine ⟨buf, rfl, rfl, fun q => ?_⟩
      rw [if_neg (fun h => Nat.not_lt_zero _ h.2)]
    | succ k ih =>
      intro hk
      obtain ⟨b, hrun, hlen, hget⟩ := ih (by omega)
      have hkI : k < indices.length := by omega
      have hkP : k < inPtrs.length := by omega
      have hkO : k < outPtrs.length := by omega
      have hD : FileDecoder.Read.decoded K indices inPtrs outPtrs k
          = if indices[k] < K then inPtrs[k] else outPtrs[k] := by
        unfold FileDecoder.Read.decoded
        rw [List.getD_eq_getElem _ _ hkI, List.getD_eq_getElem _ _ hkP,
          List.getD_eq_getElem _ _ hkO]
      obtain ⟨b1, hrun1, hlen1, hget1⟩ := FileDecoder.Read.interleave_step fuel K oc n mbr k
        (if indices[k] < K then inPtrs[k] else outPtrs[k]) buf b
        (FileDecoder.Read.decoded K indices inPtrs outPtrs) hoc (by omega) (by omega) hfuel
        hrows (by rw [← hD]; exact hdec k (by omega)) hD hget
      refine ⟨b1, ?_, by omega, hget1⟩
      rw [List.range_succ, List.foldlM_append, hrun]
      simp only [List.foldlM_cons, List.foldlM_nil]
      rw [List.getElem?_eq_getElem hkI, List.getElem?_eq_getElem hkP,
        List.getElem?_eq_getElem hkO]
      show (if k < oc then
              FileDecoder.CopyToNthElement fuel b (k + K - oc) n
                (if indices[k] < K then inPtrs[k] else outPtrs[k]) 1 K
            else
              FileDecoder.CopyToNthElement fuel b (k - oc) n
                (if indices[k] < K then inPtrs[k] else outPtrs[k]) 0 K) >>= pure = _
      rw [hrun1]
      rfl
  obtain ⟨b, hrun, hlen, hget⟩ := key K (le_refl _)
  refine ⟨b, hrun, hlen, fun q => ?_⟩
  rw [hget q]
  by_cases hqn : q < n
  · rw [if_pos ⟨hqn, Nat.mod_lt _ hK⟩, if_pos hqn]
  · rw [if_neg (fun h => hqn h.1), if_neg hqn]

/-! ## `FileDecoder::Read` -/

theorem FileDecoder.Read.outBlocks_length (work : List Nat) (K mbr i : Nat) (hi : i < K) :
    ((FileDecoder.Read.outBlocks work K mbr).getD i []).length = mbr := by
  unfold FileDecoder.Read.outBlocks
  rw [List.getD_eq_getElem?_getD, List.getElem?_map, List.getElem?_range hi]
  simp only [Option.map_some', Option.getD_some, List.length_take, List.length_drop,
    resize_length]
  have h1 : (i + 1) * mbr ≤ K * mbr := Nat.mul_le_mul_right _ hi
  rw [Nat.succ_mul, Nat.mul_comm K mbr] at h1
  omega

theorem FileDecoder.Read.fecOutputPtrs_spec (fec : FecWrapper) (work : List Nat)
    (ptrs : List (List Nat)) (idx : List Nat) (mbr : Nat) :
    (FileDecoder.Read.fecOutputPtrs fec work ptrs idx mbr).length = fec.sharesRequired ∧
      ∀ i, i < fec.sharesRequired →
        ((FileDecoder.Read.fecOutputPtrs fec work ptrs idx mbr).getD i []).length = mbr := by
  unfold FileDecoder.Read.fecOutputPtrs
  refine ⟨by simp, fun i hi => ?_⟩
  simp only []
  rw [List.getD_eq_getElem?_getD, List.getElem?_map, List.getElem?_range hi]
  simp only [Option.map_some', Option.getD_some, store_length]
  exact FileDecoder.Read.outBlocks_length work fec.sharesRequired mbr i hi

theorem FileDecoder.Read_core (codec : MetadataCodec) (fuel : Nat) (d : FileDecoder)
    (tl : ThreadLocalData) (out : List Nat) (size offset K : Nat)
    (hKd : d.fecWrapper.sharesRequired = K) (hK : 1 ≤ K) (hfiles : K ≤ d.encodedFiles.length)
    (hidx : K ≤ d.fileIndices.length) (hnd : d.fileIndices.Nodup)
    (hsmall : ∀ x ∈ d.fileIndices, x < 256) (hout : size ≤ out.length)
    (hfuel : 2 * K + size < fuel) (hlt : (offset : Int) < d.Size codec) :
    ∃ bufs mbr,
      FileDecoder.Read.readShares d.encodedFiles ((size + K - 1) / K + 1)
        (offset / K + codec.size) K (resize tl.readBuffers K []) = .ok (bufs, mbr) ∧
      (mbr = 0 → FileDecoder.Read codec fuel d tl out size offset
        = .ok { ret := 0, outBuffer := out,
                threadLocalData := { readBuffers := bufs, workBuffer := tl.workBuffer } }) ∧
      (mbr ≠ 0 → ∃ ptrs idx out1,
        FileDecoder.NormalizeIndices K fuel bufs d.fileIndices = .ok (ptrs, idx) ∧
        NormInv K K ptrs idx ∧ Rearranged K bufs d.fileIndices ptrs idx ∧
        FileDecoder.Read codec fuel d tl out size offset
          = .ok { ret := min (min size (mbr * K - offset % K))
                    (d.Size codec - (offset : Int)).toNat,
                  outBuffer := out1,
                  threadLocalData :=
                    { readBuffers := bufs,
                      workBuffer := (FileDecoder.Read.fecOutputPtrs d.fecWrapper tl.workBuffer
                        ptrs idx mbr).flatten } } ∧
        out1.length = out.length ∧
        ∀ q, out1[q]? =
          if q < min (min size (mbr * K - offset % K)) (d.Size codec - (offset : Int)).toNat
          then (FileDecoder.Read.decoded K idx ptrs
              (FileDecoder.Read.fecOutputPtrs d.fecWrapper tl.workBuffer ptrs idx mbr)
              ((q + offset % K) % K))[(q + offset % K) / K]?
          else out[q]?) := by
  obtain ⟨bufs, mbr, hrun, hblen, hbufs, hmle, _, _⟩ :=
    FileDecoder.Read.readShares_spec d.encodedFiles ((size + K - 1) / K + 1)
      (offset / K + codec.size) K (resize tl.readBuffers K []) hfiles (resize_length _ _ _)
  have hnge : ¬ ((offset : Int) ≥ d.Size codec) := by omega
  have hK0 : ¬ K = 0 := by omega
  refine ⟨bufs, mbr, hrun, ?_, ?_⟩
  · intro hm
    simp only [FileDecoder.Read, hKd, if_neg hnge, if_neg hK0, hrun, hm, if_true]
  · intro hm
    obtain ⟨ptrs, idx, hnorm, hinv, hre⟩ := FileDecoder.NormalizeIndices_spec K fuel bufs
      d.fileIndices hidx (by omega) hnd hsmall (by omega)
    have hoc : offset % K < K := Nat.mod_lt _ (by omega)
    have hmK : K ≤ mbr * K := Nat.le_mul_of_pos_left K (by omega)
    obtain ⟨hOlen, hOblk⟩ := FileDecoder.Read.fecOutputPtrs_spec d.fecWrapper tl.workBuffer
      ptrs idx mbr
    rw [hKd] at hOlen hOblk
    have hdec : ∀ i, i < K → mbr ≤ (FileDecoder.Read.decoded K idx ptrs
        (FileDecoder.Read.fecOutputPtrs d.fecWrapper tl.workBuffer ptrs idx mbr) i).length := by
      intro i hi
      unfold FileDecoder.Read.decoded
      split_ifs with hsys
      · obtain ⟨t, ht, _, hpt⟩ := hre.lt i hi
        obtain ⟨f, old, _, _, hbt⟩ := hbufs t ht
        rw [List.getD_eq_getElem?_getD, hpt, hbt]
        simp only [Option.getD_some, store_length, resize_length]
        exact hmle
      · rw [hOblk i hi]
    obtain ⟨out1, hint, hlen1, hget1⟩ := FileDecoder.Read.interleave_spec fuel K (offset % K)
      (min (min size (mbr * K - offset % K)) (d.Size codec - (offset : Int)).toNat) mbr
      idx ptrs (FileDecoder.Read.fecOutputPtrs d.fecWrapper tl.workBuffer ptrs idx mbr) out
      hoc (by omega) (by omega) (by omega) hinv.lenI hinv.lenP (by omega) hdec
    refine ⟨ptrs, idx, out1, hnorm, hinv, hre, ?_, hlen1, hget1⟩
    simp only [FileDecoder.Read, hKd, if_neg hnge, if_neg hK0, hrun, if_neg hm, hnorm, hint]

theorem FileDecoder.Read_error_of_normalize (codec : MetadataCodec) (fuel : Nat)
    (d : FileDecoder) (tl : ThreadLocalData) (out : List Nat) (size offset : Nat)
    (bufs : List (List Nat)) (mbr : Nat) (e : Failure)
    (hlt : ¬ ((offset : Int) ≥ d.Size codec)) (hK : ¬ d.fecWrapper.sharesRequired = 0)
    (hrun : FileDecoder.Read.readShares d.encodedFiles
      ((size + d.fecWrapper.sharesRequired - 1) / d.fecWrapper.sharesRequired + 1)
      (offset / d.fecWrapper.sharesRequired + codec.size) d.fecWrapper.sharesRequired
      (resize tl.readBuffers d.fecWrapper.sharesRequired []) = .ok (bufs, mbr))
    (hm : ¬ mbr = 0)
    (hnorm : FileDecoder.NormalizeIndices d.fecWrapper.sharesRequired fuel bufs d.fileIndices
      = .error e) :
    FileDecoder.Read codec fuel d tl out size offset = .error e := by
  simp only [FileDecoder.Read, if_neg hlt, if_neg hK, hrun, if_neg hm, hnorm]

/-- C6 at its failing input: with K = 2 and the index vector `[0, 0]` the loop of
`FileDecoder::NormalizeIndices` is still running after any number of steps, whatever the two
pointers.  At `i = 1` the guard `indices[index] != index` is false, nothing is swapped and `i`
is not advanced.  The input is reached through the decoder itself: `FileDecoder::Open` accepts
two files that both carry index 0, and `Read(out, 5, 0)` on the returned handle never leaves
`NormalizeIndices`. -/
theorem FileDecoder.NormalizeIndices_never_ends_on_duplicates :
    (∀ (p q : List Nat) (fuel : Nat),
        FileDecoder.NormalizeIndices 2 fuel [p, q] [0, 0] = .error .outOfFuel) ∧
      ∃ d, FileDecoder.Open codec3 [share0, share0Again] parityFec = .ok d ∧
        ∀ fuel, FileDecoder.Read codec3 fuel d { readBuffers := [], workBuffer := [] }
          [0, 0, 0, 0, 0] 5 0 = .error .outOfFuel := by
  have hloop : ∀ (p q : List Nat) (fuel : Nat),
      FileDecoder.NormalizeIndices 2 fuel [p, q] [0, 0] = .error .outOfFuel := by
    intro p q fuel
    unfold FileDecoder.NormalizeIndices
    cases fuel with
    | zero => rfl
    | succ f =>
      rw [FileDecoder.NormalizeIndices.loop]
      simpa using FileDecoder.NormalizeIndices.loop_stuck p q f
  refine ⟨hloop, _, rfl, fun fuel => ?_⟩
  exact FileDecoder.Read_error_of_normalize codec3 fuel _ _ _ 5 0
    [[97, 99, 101, 0], [98, 100, 0, 0]] 3 .outOfFuel (by decide) (by decide) rfl (by decide)
    (hloop _ _ fuel)

/-- C10 (byte count returned by `FileDecoder::Read`): on a handle with K ≥ 1, at least K files,
pairwise distinct byte-sized indices and a caller buffer of at least `size` bytes, every run
with more than `2 · K + size` units of fuel returns.  With `minBytesRead` the smallest of the
byte counts the K shares return for the request of `(size + K − 1) / K + 1` bytes at encoded
offset `offset / K + H`, the returned count is 0 when `offset ≥ Size()` or `minBytesRead = 0`,
and `min(size, minBytesRead · K − offset mod K, Size() − offset)` otherwise; it never exceeds
`size` nor the number of bytes between `offset` and `Size()`. -/
theorem FileDecoder.Read_ret (codec : MetadataCodec) (fuel : Nat) (d : FileDecoder)
    (tl : ThreadLocalData) (out : List Nat) (size offset : Nat)
    (hK : 1 ≤ d.fecWrapper.sharesRequired)
    (hfiles : d.fecWrapper.sharesRequired ≤ d.encodedFiles.length)
    (hidx : d.fecWrapper.sharesRequired ≤ d.fileIndices.length)
    (hnd : d.fileIndices.Nodup) (hsmall : ∀ x ∈ d.fileIndices, x < 256)
    (hout : size ≤ out.length) (hfuel : 2 * d.fecWrapper.sharesRequired + size < fuel) :
    ∃ minBytesRead r,
      (∀ i, i < d.fecWrapper.sharesRequired → ∀ f, d.encodedFiles[i]? = some f →
        minBytesRead ≤ (f.Read ((size + d.fecWrapper.sharesRequired - 1)
          / d.fecWrapper.sharesRequired + 1)
          (offset / d.fecWrapper.sharesRequired + codec.size)).length) ∧
      (∃ i, i < d.fecWrapper.sharesRequired ∧ ∃ f, d.encodedFiles[i]? = some f ∧
        minBytesRead = (f.Read ((size + d.fecWrapper.sharesRequired - 1)
          / d.fecWrapper.sharesRequired + 1)
          (offset / d.fecWrapper.sharesRequired + codec.size)).length) ∧
      FileDecoder.Read codec fuel d tl out size offset = .ok r ∧
      r.ret = (if (offset : Int) ≥ d.Size codec ∨ minBytesRead = 0 then 0
        else min (min size (minBytesRead * d.fecWrapper.sharesRequired
            - offset % d.fecWrapper.sharesRequired))
          (d.Size codec - (offset : Int)).toNat) ∧
      r.ret ≤ size ∧ r.ret ≤ (d.Size codec - (offset : Int)).toNat := by
  generalize hKd : d.fecWrapper.sharesRequired = K at *
  obtain ⟨bufs, mbr, hrun, _, _, hmle, hmin, hatt⟩ :=
    FileDecoder.Read.readShares_spec d.encodedFiles ((size + K - 1) / K + 1)
      (offset / K + codec.size) K (resize tl.readBuffers K []) hfiles (resize_length _ _ _)
  have hatt2 : ∃ i, i < K ∧ ∃ f, d.encodedFiles[i]? = some f ∧
      mbr = (f.Read ((size + K - 1) / K + 1) (offset / K + codec.size)).length := by
    rcases hatt with hfull | h
    · have h0 : 0 < d.encodedFiles.length := by omega
      refine ⟨0, by omega, d.encodedFiles[0], List.getElem?_eq_getElem h0, ?_⟩
      have h1 := hmin 0 (by omega) d.encodedFiles[0] (List.getElem?_eq_getElem h0)
      have h2 := d.encodedFiles[0].Read_le ((size + K - 1) / K + 1) (offset / K + codec.size)
      omega
    · exact h
  by_cases hge : (offset : Int) ≥ d.Size codec
  · refine ⟨mbr, { ret := 0, outBuffer := out, threadLocalData := tl }, hmin, hatt2, ?_, ?_,
      Nat.zero_le _, Nat.zero_le _⟩
    · simp only [FileDecoder.Read, if_pos hge]
    · rw [if_pos (Or.inl hge)]
  · obtain ⟨bufs2, mbr2, hrun2, hzero, hpos⟩ := FileDecoder.Read_core codec fuel d tl out size
      offset K hKd hK hfiles hidx hnd hsmall hout hfuel (by omega)
    rw [hrun] at hrun2
    simp only [Except.ok.injEq, Prod.mk.injEq] at hrun2
    obtain ⟨rfl, rfl⟩ := hrun2
    by_cases hm : mbr = 0
    · refine ⟨mbr, _, hmin, hatt2, hzero hm, ?_, Nat.zero_le _, Nat.zero_le _⟩
      rw [if_pos (Or.inr hm)]
    · obtain ⟨ptrs, idx, out1, _, _, _, hread, _, _⟩ := hpos hm
      refine ⟨mbr, _, hmin, hatt2, hread, ?_, ?_, ?_⟩
      · rw [if_neg (by rintro (h | h); exact hge h; exact hm h)]
      · exact le_trans (min_le_left _ _) (min_le_left _ _)
      · exact min_le_right _ _

/-! ## Reading back the shares of a file -/

theorem ReadMetadata_share (codec : MetadataCodec) (hdr body : List Nat) (m : Metadata)
    (hlen : hdr.length = codec.size) (hdec : codec.decode hdr = some m) :
    ReadMetadata codec (File (hdr ++ body)) = .ok m := by
  have hbuf : (File (hdr ++ body)).Read codec.size 0 = hdr := by
    simp only [File, List.drop_zero]
    rw [← hlen, List.take_left']
    rfl
  simp only [ReadMetadata, hbuf, hlen, ne_eq, not_true_eq_false, if_false, hdec]

theorem storedIndex_share (codec : MetadataCodec) (hdr body : List Nat) (m : Metadata)
    (hlen : hdr.length = codec.size) (hdec : codec.decode hdr = some m) :
    storedIndex codec (File (hdr ++ body)) = m.index % 256 := by
  simp only [storedIndex, ReadMetadata_share codec hdr body m hlen hdec]

theorem FileDecoder.Open_shareFiles (codec : MetadataCodec) (fec : FecWrapper) (K : Nat)
    (F : List Nat) (hdr body : Nat → List Nat) (σ : List Nat) (hK : 1 ≤ K)
    (hfec : fec.sharesRequired = K) (hlen : σ.length = K) (hsmall : ∀ j ∈ σ, j < 256)
    (hshare : ∀ j ∈ σ, IsShareOf codec K F hdr body j) :
    ∃ d, FileDecoder.Open codec (shareFiles hdr body σ) fec = .ok d ∧
      d.encodedFiles = shareFiles hdr body σ ∧ d.fileIndices = σ ∧ d.fecWrapper = fec ∧
      d.Size codec = (F.length : Int) := by
  cases σ with
  | nil => simp at hlen; omega
  | cons j0 rest =>
    obtain ⟨h0len, h0dec, h0body, _⟩ := hshare j0 (List.mem_cons_self _ _)
    have hsize : ∀ j ∈ j0 :: rest, (File (hdr j ++ body j)).Size
        = ((codec.size + (F.length + K - 1) / K : Nat) : Int) := by
      intro j hj
      obtain ⟨h1, _, h3, _⟩ := hshare j hj
      simp only [File, List.length_append, h1, h3]
    have hidx : (shareFiles hdr body (j0 :: rest)).map (storedIndex codec) = j0 :: rest := by
      unfold shareFiles
      rw [List.map_map]
      conv_rhs => rw [← List.map_id (j0 :: rest)]
      apply List.map_congr_left
      intro j hj
      obtain ⟨h1, h2, _, _⟩ := hshare j hj
      simp only [Function.comp_apply, id_eq]
      rw [storedIndex_share codec (hdr j) (body j) _ h1 h2]
      exact Nat.mod_eq_of_lt (hsmall j hj)
    refine ⟨_, (FileDecoder.Open_ok_iff codec _ fec _).mpr
      ⟨File (hdr j0 ++ body j0), shareFiles hdr body rest, _, rfl,
        ReadMetadata_share codec (hdr j0) (body j0) _ h0len h0dec, ?_, hfec.symm,
        Nat.mod_lt _ (by omega), ?_, rfl⟩, rfl, hidx, rfl, ?_⟩
    · intro f hf
      unfold shareFiles at hf
      obtain ⟨j, hj, rfl⟩ := List.mem_map.mp hf
      obtain ⟨h1, h2, _, _⟩ := hshare j (List.mem_cons_of_mem _ hj)
      refine ⟨_, ReadMetadata_share codec (hdr j) (body j) _ h1 h2, rfl, rfl, ?_⟩
      rw [hsize j (List.mem_cons_of_mem _ hj), hsize j0 (List.mem_cons_self _ _)]
    · rw [hsize j0 (List.mem_cons_self _ _)]
      omega
    · simp only [FileDecoder.Size, FileDecoder.SizeOf]
      rw [hsize j0 (List.mem_cons_self _ _)]
      have hmul := ceil_mul_eq F.length K hK
      have e1 : (((codec.size + (F.length + K - 1) / K : Nat) : Int) - (codec.size : Int))
          = (((F.length + K - 1) / K : Nat) : Int) := by push_cast; ring
      have e2 : ((((F.length + K - 1) / K : Nat) : Int)) * (K : Int)
          = (F.length : Int) + (((K - F.length % K) % K : Nat) : Int) := by
        exact_mod_cast hmul
      rw [e1, e2]
      ring

theorem File_Read_share (hdr body : List Nat) (H n a : Nat) (hlen : hdr.length = H) :
    (File (hdr ++ body)).Read n (a + H) = (body.drop a).take n := by
  simp only [File]
  rw [Nat.add_comm, ← hlen, List.drop_append]

theorem window_arith (K flen s o : Nat) (hK : 1 ≤ K) (ho : o < flen) (hs : s ≤ flen - o) :
    s + o % K ≤ min ((s + K - 1) / K + 1) ((flen + K - 1) / K - o / K) * K ∧
      min ((s + K - 1) / K + 1) ((flen + K - 1) / K - o / K) ≠ 0 := by
  have hc := ceil_mul_eq flen K hK
  have hb := ceil_mul_eq s K hK
  have hoc := Nat.mod_lt o hK
  have hdm := Nat.div_add_mod o K
  rw [Nat.mul_comm] at hdm
  have hclt : o / K < (flen + K - 1) / K := by
    by_contra hge
    have := Nat.mul_le_mul_right K (Nat.le_of_not_lt hge)
    omega
  have h1 : s + o % K ≤ ((s + K - 1) / K + 1) * K := by
    rw [Nat.add_mul, Nat.one_mul, hb]; omega
  have h2 : s + o % K ≤ ((flen + K - 1) / K - o / K) * K := by
    rw [Nat.sub_mul, hc]; omega
  constructor
  · rcases min_choice ((s + K - 1) / K + 1) ((flen + K - 1) / K - o / K) with h | h
    · rw [h]; exact h1
    · rw [h]; exact h2
  · rcases min_choice ((s + K - 1) / K + 1) ((flen + K - 1) / K - o / K) with h | h
    · rw [h]; exact Nat.succ_ne_zero _
    · rw [h]; exact Nat.sub_ne_zero_of_lt hclt

/-- Reading a range back from K shares of `F`: when the handle holds the share files listed
in `σ` (pairwise distinct byte-sized indices), the columns of the shares with index below K
come from their own buffers, and `Decode` is assumed to put the original column into every
output slot whose normalised input has an index of K or more. -/
theorem FileDecoder.Read_shareFiles (codec : MetadataCodec) (K : Nat) (F : List Nat)
    (hdr body : Nat → List Nat) (σ : List Nat) (d : FileDecoder) (tl : ThreadLocalData)
    (out : List Nat) (s o fuel : Nat) (hK : 1 ≤ K)
    (hfiles : d.encodedFiles = shareFiles hdr body σ) (hidx : d.fileIndices = σ)
    (hfec : d.fecWrapper.sharesRequired = K) (hsize : d.Size codec = (F.length : Int))
    (hlen : σ.length = K) (hnd : σ.Nodup) (hsmall : ∀ j ∈ σ, j < 256)
    (hshare : ∀ j ∈ σ, IsShareOf codec K F hdr body j)
    (ho : o ≤ F.length) (hs : s ≤ F.length - o) (hout : s ≤ out.length)
    (hfuel : 2 * K + s < fuel)
    (hDecode : ∀ bufs mbr ptrs idx,
      FileDecoder.Read.readShares d.encodedFiles ((s + K - 1) / K + 1) (o / K + codec.size) K
        (resize tl.readBuffers K []) = .ok (bufs, mbr) →
      FileDecoder.NormalizeIndices K fuel bufs d.fileIndices = .ok (ptrs, idx) →
      ∀ i, i < K → ∀ x, idx[i]? = some x → K ≤ x → ∀ p, p < mbr →
        ((FileDecoder.Read.fecOutputPtrs d.fecWrapper tl.workBuffer ptrs idx mbr).getD i [])[p]?
          = some (F.getD ((o / K + p) * K + i) 0)) :
    ∃ r, FileDecoder.Read codec fuel d tl out s o = .ok r ∧ r.ret = s ∧
      r.outBuffer.take s = (F.drop o).take s := by
  by_cases hoF : o = F.length
  · have hs0 : s = 0 := by omega
    subst hs0
    refine ⟨{ ret := 0, outBuffer := out, threadLocalData := tl }, ?_, rfl, by simp⟩
    have hge : (o : Int) ≥ d.Size codec := by rw [hsize]; omega
    simp only [FileDecoder.Read, if_pos hge]
  · have hoF2 : o < F.length := by omega
    have hflen : (shareFiles hdr body σ).length = K := by simp [shareFiles, hlen]
    obtain ⟨bufs, mbr, hrun, _, hpos⟩ := FileDecoder.Read_core codec fuel d tl out s o K hfec hK
      (by rw [hfiles, hflen]) (by rw [hidx, hlen]) (by rw [hidx]; exact hnd)
      (by rw [hidx]; exact hsmall) hout hfuel (by rw [hsize]; omega)
    obtain ⟨bufs2, mbr2, hrun2, _, hbufs, hmle, hmin, hatt⟩ :=
      FileDecoder.Read.readShares_spec d.encodedFiles ((s + K - 1) / K + 1)
        (o / K + codec.size) K (resize tl.readBuffers K []) (by rw [hfiles, hflen])
        (resize_length _ _ _)
    rw [hrun] at hrun2
    simp only [Except.ok.injEq, Prod.mk.injEq] at hrun2
    obtain ⟨rfl, rfl⟩ := hrun2
    -- every share returns the same number of bytes
    have hfile : ∀ t, t < K → ∃ j, σ[t]? = some j ∧ j ∈ σ ∧
        d.encodedFiles[t]? = some (File (hdr j ++ body j)) := by
      intro t ht
      have htl : t < σ.length := by omega
      refine ⟨σ[t], List.getElem?_eq_getElem htl, List.getElem_mem _, ?_⟩
      rw [hfiles]
      simp [shareFiles, List.getElem?_eq_getElem htl]
    have hdata : ∀ j ∈ σ, (File (hdr j ++ body j)).Read ((s + K - 1) / K + 1)
        (o / K + codec.size) = ((body j).drop (o / K)).take ((s + K - 1) / K + 1) :=
      fun j hj => File_Read_share (hdr j) (body j) codec.size _ _ (hshare j hj).1
    have hdlen : ∀ j ∈ σ, ((File (hdr j ++ body j)).Read ((s + K - 1) / K + 1)
        (o / K + codec.size)).length
          = min ((s + K - 1) / K + 1) ((F.length + K - 1) / K - o / K) := by
      intro j hj
      rw [hdata j hj, List.length_take, List.length_drop, (hshare j hj).2.2.1]
    have hmbr : mbr = min ((s + K - 1) / K + 1) ((F.length + K - 1) / K - o / K) := by
      obtain ⟨j0, _, hj0, hf0⟩ := hfile 0 (by omega)
      have hle := hmin 0 (by omega) _ hf0
      rw [hdlen j0 hj0] at hle
      rcases hatt with h | ⟨i, hi, f, hf, hm⟩
      · have := min_le_left ((s + K - 1) / K + 1) ((F.length + K - 1) / K - o / K)
        omega
      · obtain ⟨j, _, hj, hfj⟩ := hfile i hi
        rw [hfj] at hf
        cases hf
        rw [hm, hdlen j hj]
    clear hatt hmin
    obtain ⟨hrows, hm0⟩ := window_arith K F.length s o hK hoF2 hs
    rw [← hmbr] at hrows hm0
    obtain ⟨ptrs, idx, out1, hnorm, hinv, hre, hread, hlen1, hget⟩ := hpos hm0
    have hn : min (min s (mbr * K - o % K)) (d.Size codec - (o : Int)).toNat = s := by
      rw [hsize]
      rw [Int.toNat_sub F.length o, min_eq_left (by omega : s ≤ mbr * K - o % K),
        min_eq_left hs]
    rw [hn] at hread hget
    refine ⟨_, hread, rfl, ?_⟩
    show out1.take s = (F.drop o).take s
    apply List.ext_getElem?
    intro q
    by_cases hq : q < s
    · rw [List.getElem?_take_of_lt hq, List.getElem?_take_of_lt hq, List.getElem?_drop, hget q,
        if_pos hq]
      have hoc := Nat.mod_lt o hK
      have hcol := Nat.mod_lt (q + o % K) hK
      have hdm := Nat.div_add_mod (q + o % K) K
      have hdo := Nat.div_add_mod o K
      have hrow : (q + o % K) / K < mbr :=
        Nat.div_lt_of_lt_mul (by have := Nat.mul_comm mbr K; omega)
      have hpos2 : (o / K + (q + o % K) / K) * K + (q + o % K) % K = o + q := by
        rw [Nat.add_mul, Nat.mul_comm (o / K) K, Nat.mul_comm ((q + o % K) / K) K]
        omega
      have hF : F[o + q]? = some (F.getD (o + q) 0) := by
        rw [List.getD_eq_getElem?_getD, List.getElem?_eq_getElem (by omega)]
        rfl
      rw [hF]
      generalize hc : (q + o % K) % K = c at hcol hdm hpos2
      generalize ha : (q + o % K) / K = a at hrow hdm hpos2
      have hcI : c < idx.length := lt_of_lt_of_le hcol hinv.lenI
      have hx : idx[c]? = some idx[c] := List.getElem?_eq_getElem hcI
      unfold FileDecoder.Read.decoded
      rw [List.getD_eq_getElem?_getD, hx, Option.getD_some]
      by_cases hsys : idx[c] < K
      · rw [if_pos hsys]
        have hxc : idx[c] = c := hinv.fixed c hcol _ hx hsys
        obtain ⟨t, ht, hit, hpt⟩ := hre.lt c hcol
        rw [hx, hxc, hidx] at hit
        obtain ⟨j, hσt, hjσ, hft⟩ := hfile t ht
        rw [hσt] at hit
        cases hit
        obtain ⟨f, old, hf, _, hbt⟩ := hbufs t ht
        rw [hft] at hf
        cases hf
        rw [List.getD_eq_getElem?_getD, hpt, hbt, Option.getD_some]
        have hal : a < ((File (hdr c ++ body c)).Read ((s + K - 1) / K + 1)
            (o / K + codec.size)).length := by rw [hdlen c hjσ, ← hmbr]; exact hrow
        rw [store_getElem? _ _ a hal (by rw [resize_length]; omega), hdata c hjσ,
          List.getElem?_take_of_lt (by omega), List.getElem?_drop,
          (hshare c hjσ).2.2.2 hcol (o / K + a) (by omega), hpos2]
      · rw [if_neg hsys]
        rw [hDecode bufs mbr ptrs idx hrun hnorm c hcol idx[c] hx (by omega) a hrow, hpos2]
    · rw [List.getElem?_eq_none (by rw [List.length_take]; omega),
        List.getElem?_eq_none (by rw [List.length_take]; omega)]

/-- The handle of C10's concrete instance is what `FileDecoder::Open` returns for shares 0 and
1 of `"abcde"`. -/
theorem decoder01_eq : FileDecoder.Open codec3 [share0, share1] parityFec = .ok decoder01 := rfl

/-- C10 on the handle for shares 0 and 1 of `"abcde"`: `Read(out, 2, 3)`. -/
theorem FileDecoder.Read_ret_witness :
    ∃ minBytesRead r,
      (∀ i, i < 2 → ∀ f, decoder01.encodedFiles[i]? = some f →
        minBytesRead ≤ (f.Read ((2 + 2 - 1) / 2 + 1) (3 / 2 + codec3.size)).length) ∧
      (∃ i, i < 2 ∧ ∃ f, decoder01.encodedFiles[i]? = some f ∧
        minBytesRead = (f.Read ((2 + 2 - 1) / 2 + 1) (3 / 2 + codec3.size)).length) ∧
      FileDecoder.Read codec3 7 decoder01 { readBuffers := [], workBuffer := [] } [0, 0] 2 3
        = .ok r ∧
      r.ret = (if ((3 : Nat) : Int) ≥ decoder01.Size codec3 ∨ minBytesRead = 0 then 0
        else min (min 2 (minBytesRead * 2 - 3 % 2))
          (decoder01.Size codec3 - ((3 : Nat) : Int)).toNat) ∧
      r.ret ≤ 2 ∧ r.ret ≤ (decoder01.Size codec3 - ((3 : Nat) : Int)).toNat :=
  FileDecoder.Read_ret codec3 7 decoder01 { readBuffers := [], workBuffer := [] } [0, 0] 2 3
    (by decide) (by decide) (by decide) (by decide) (by decide) (by decide) (by decide)

/-- C1 (random-range law over systematic shares): for 1 ≤ K ≤ 256, original bytes `F` and the
K share files with indices 0..K−1 in any order `σ` (each with the header of the header law and
the data of the systematic law), `FileDecoder::Open` returns a handle on which, for every
`o ≤ |F|` and `s ≤ |F| − o`, `Read(out, s, o)` into a buffer of at least `s` bytes returns `s`
and leaves `F[o..o+s)` in `out[0..s)`; more than `2 · K + s` units of fuel are enough. -/
theorem FileDecoder.Read_systematic (codec : MetadataCodec) (fec : FecWrapper) (K : Nat)
    (F : List Nat) (hdr body : Nat → List Nat) (σ : List Nat) (tl : ThreadLocalData)
    (out : List Nat) (s o fuel : Nat) (hK : 1 ≤ K) (hK256 : K ≤ 256)
    (hfec : fec.sharesRequired = K) (hσ : σ.Perm (List.range K))
    (hshare : ∀ j, j < K → IsShareOf codec K F hdr body j)
    (ho : o ≤ F.length) (hs : s ≤ F.length - o) (hout : s ≤ out.length)
    (hfuel : 2 * K + s < fuel) :
    ∃ d r, FileDecoder.Open codec (shareFiles hdr body σ) fec = .ok d ∧
      FileDecoder.Read codec fuel d tl out s o = .ok r ∧ r.ret = s ∧
      r.outBuffer.take s = (F.drop o).take s := by
  have hlen : σ.length = K := by rw [hσ.length_eq, List.length_range]
  have hnd : σ.Nodup := hσ.nodup_iff.mpr (List.nodup_range K)
  have hlt : ∀ j ∈ σ, j < K := fun j hj => List.mem_range.mp (hσ.mem_iff.mp hj)
  obtain ⟨d, hopen, hfiles, hidx, hdfec, hsize⟩ := FileDecoder.Open_shareFiles codec fec K F
    hdr body σ hK hfec hlen (fun j hj => by have := hlt j hj; omega)
    (fun j hj => hshare j (hlt j hj))
  have hdK : d.fecWrapper.sharesRequired = K := by rw [hdfec, hfec]
  obtain ⟨r, hread, hret, hbytes⟩ := FileDecoder.Read_shareFiles codec K F hdr body σ d tl out
    s o fuel hK hfiles hidx hdK hsize hlen hnd (fun j hj => by have := hlt j hj; omega)
    (fun j hj => hshare j (hlt j hj)) ho hs hout hfuel
    (by
      intro bufs mbr ptrs idx hrun hnorm i hi x hx hKx
      exfalso
      obtain ⟨bufs2, mbr2, hrun2, hblen, _⟩ :=
        FileDecoder.Read.readShares_spec d.encodedFiles ((s + K - 1) / K + 1)
          (o / K + codec.size) K (resize tl.readBuffers K [])
          (by rw [hfiles]; simp [shareFiles, hlen]) (resize_length _ _ _)
      rw [hrun] at hrun2
      simp only [Except.ok.injEq, Prod.mk.injEq] at hrun2
      obtain ⟨rfl, rfl⟩ := hrun2
      obtain ⟨ptrs2, idx2, hnorm2, _, hre⟩ := FileDecoder.NormalizeIndices_spec K fuel bufs
        d.fileIndices (by rw [hidx, hlen]) (by omega) (by rw [hidx]; exact hnd)
        (by rw [hidx]; intro j hj; have := hlt j hj; omega) (by omega)
      rw [hnorm] at hnorm2
      simp only [Except.ok.injEq, Prod.mk.injEq] at hnorm2
      obtain ⟨rfl, rfl⟩ := hnorm2
      obtain ⟨t, _, hit, _⟩ := hre.lt i hi
      rw [hx, hidx] at hit
      have := hlt x (List.getElem?_mem hit.symm)
      omega)
  exact ⟨d, r, hopen, hread, hret, hbytes⟩

/-- C1 on the literal scenario: K = 2, `"abcde"`, shares 1 and 0 in that order, `Read(3, 2)`
gives `"de"`. -/
theorem FileDecoder.Read_systematic_witness :
    ∃ d r, FileDecoder.Open codec3 (shareFiles abcdeHeader abcdeData [1, 0]) parityFec = .ok d ∧
      FileDecoder.Read codec3 7 d { readBuffers := [], workBuffer := [] } [0, 0] 2 3 = .ok r ∧
      r.ret = 2 ∧ r.outBuffer.take 2 = (abcde.drop 3).take 2 :=
  FileDecoder.Read_systematic codec3 parityFec 2 abcde abcdeHeader abcdeData [1, 0]
    { readBuffers := [], workBuffer := [] } [0, 0] 2 3 7 (by decide) (by decide) rfl
    (by decide)
    (by
      intro j hj
      have hj2 : j = 0 ∨ j = 1 := by omega
      rcases hj2 with rfl | rfl
      · exact ⟨rfl, rfl, rfl, by decide⟩
      · exact ⟨rfl, rfl, rfl, by decide⟩)
    (by decide) (by decide) (by decide) (by decide)

/-- C2 (round trip through any K shares): for K ≥ 1, N ≤ 256, original bytes `F` and K share
files with pairwise distinct indices below N (systematic shares with the data of the
systematic law, the others with any data of the same length), assume that at the call made by
`Read` the `Decode` of the wrapper leaves original column `i` in output slot `i` for every
normalised slot `i` that holds a share of index K or more.  Then `FileDecoder::Open` returns a
handle on which `Read(out, |F|, 0)` returns `|F|` and leaves exactly `F` in `out[0..|F|)`. -/
theorem FileDecoder.Read_round_trip (codec : MetadataCodec) (fec : FecWrapper) (K N : Nat)
    (F : List Nat) (hdr body : Nat → List Nat) (σ : List Nat) (tl : ThreadLocalData)
    (out : List Nat) (fuel : Nat) (hK : 1 ≤ K) (hN : N ≤ 256)
    (hfec : fec.sharesRequired = K) (hlen : σ.length = K) (hnd : σ.Nodup)
    (hσN : ∀ j ∈ σ, j < N) (hshare : ∀ j ∈ σ, IsShareOf codec K F hdr body j)
    (hout : F.length ≤ out.length) (hfuel : 2 * K + F.length < fuel)
    (hDecode : ∀ bufs mbr ptrs idx,
      FileDecoder.Read.readShares (shareFiles hdr body σ) ((F.length + K - 1) / K + 1)
        codec.size K (resize tl.readBuffers K []) = .ok (bufs, mbr) →
      FileDecoder.NormalizeIndices K fuel bufs σ = .ok (ptrs, idx) →
      ∀ i, i < K → ∀ x, idx[i]? = some x → K ≤ x → ∀ p, p < mbr →
        ((FileDecoder.Read.fecOutputPtrs fec tl.workBuffer ptrs idx mbr).getD i [])[p]?
          = some (F.getD (p * K + i) 0)) :
    ∃ d r, FileDecoder.Open codec (shareFiles hdr body σ) fec = .ok d ∧
      FileDecoder.Read codec fuel d tl out F.length 0 = .ok r ∧ r.ret = F.length ∧
      r.outBuffer.take F.length = F := by
  obtain ⟨d, hopen, hfiles, hidx, hdfec, hsize⟩ := FileDecoder.Open_shareFiles codec fec K F
    hdr body σ hK hfec hlen (fun j hj => by have := hσN j hj; omega) hshare
  have hdK : d.fecWrapper.sharesRequired = K := by rw [hdfec, hfec]
  obtain ⟨r, hread, hret, hbytes⟩ := FileDecoder.Read_shareFiles codec K F hdr body σ d tl out
    F.length 0 fuel hK hfiles hidx hdK hsize hlen hnd (fun j hj => by have := hσN j hj; omega)
    hshare (Nat.zero_le _) (by omega) hout hfuel
    (by
      intro bufs mbr ptrs idx hrun hnorm i hi x hx hKx p hp
      rw [hfiles, Nat.zero_div, Nat.zero_add] at hrun
      rw [hidx] at hnorm
      rw [hdfec, Nat.zero_div, Nat.zero_add]
      exact hDecode bufs mbr ptrs idx hrun hnorm i hi x hx hKx p hp)
  refine ⟨d, r, hopen, hread, hret, ?_⟩
  rw [hbytes, List.drop_zero, List.take_length]

/-- C2 on the literal scenario: K = 2, N = 3, `"abcde"`, shares 0 and 2 under the parity code
`parityFec`, `Read(0, 5)` gives `"abcde"`. -/
theorem FileDecoder.Read_round_trip_witness :
    ∃ d r, FileDecoder.Open codec3 (shareFiles abcdeHeader abcdeData [0, 2]) parityFec = .ok d ∧
      FileDecoder.Read codec3 10 d { readBuffers := [], workBuffer := [] } [0, 0, 0, 0, 0]
        abcde.length 0 = .ok r ∧
      r.ret = abcde.length ∧ r.outBuffer.take abcde.length = abcde :=
  FileDecoder.Read_round_trip codec3 parityFec 2 3 abcde abcdeHeader abcdeData [0, 2]
    { readBuffers := [], workBuffer := [] } [0, 0, 0, 0, 0] 10 (by decide) (by decide)
    rfl rfl (by decide) (by decide)
    (by
      intro j hj
      simp only [List.mem_cons, List.mem_singleton, List.not_mem_nil, or_false] at hj
      rcases hj with rfl | rfl
      · exact ⟨rfl, rfl, rfl, by decide⟩
      · exact ⟨rfl, rfl, rfl, by decide⟩)
    (by decide) (by decide)
    (by
      intro bufs mbr ptrs idx hrun hnorm i hi x hx hKx p hp
      rw [show FileDecoder.Read.readShares (shareFiles abcdeHeader abcdeData [0, 2])
          ((abcde.length + 2 - 1) / 2 + 1) codec3.size 2
          (resize ({ readBuffers := [], workBuffer := [] } : ThreadLocalData).readBuffers 2 [])
          = .ok ([[97, 99, 101, 0], [3, 7, 101, 0]], 3) from rfl] at hrun
      simp only [Except.ok.injEq, Prod.mk.injEq] at hrun
      obtain ⟨rfl, rfl⟩ := hrun
      rw [show FileDecoder.NormalizeIndices 2 10 [[97, 99, 101, 0], [3, 7, 101, 0]] [0, 2]
          = .ok ([[97, 99, 101, 0], [3, 7, 101, 0]], [0, 2]) from rfl] at hnorm
      simp only [Except.ok.injEq, Prod.mk.injEq] at hnorm
      obtain ⟨rfl, rfl⟩ := hnorm
      have hi2 : i = 0 ∨ i = 1 := by omega
      rcases hi2 with rfl | rfl
      · simp at hx
        omega
      · have hp3 : p = 0 ∨ p = 1 ∨ p = 2 := by omega
        rcases hp3 with rfl | rfl | rfl <;> rfl)

/-! ## The encoder facade -/

theorem foldl_append_singleton {α β : Type} (f : α → β) (l : List α) (init : List β) :
    l.foldl (fun acc x => acc ++ [f x]) init = init ++ l.map f := by
  induction l generalizing init with
  | nil => simp
  | cons x l ih => simp [ih]

/-- C11 (`Getattr` reports the encoded size): when the path decodes with a share index and
`lstat` on the decoded path succeeds with `st`, then for a regular file `Getattr` returns 0 and
leaves `st` in `stbuf` with `st_size` replaced by `Size(st_size, K)`, which is
`⌈st_size / K⌉ + H` for `st_size ≥ 0` and K ≥ 1; for any other file type it returns 0 and
leaves `st` unchanged. -/
theorem ZFecFSEncoder.Getattr_file (H : Nat) (host : Host) (fs : ZFecFSEncoder)
    (path : String) (stbuf st : Stat) (decodedPath : DecodedPath)
    (hdec : host.DecodePath path fs.source = some decodedPath)
    (hidx : decodedPath.indexGiven = true)
    (hstat : host.lstat decodedPath.path = .ok st) :
    (st.st_mode &&& S_IFMT = S_IFREG →
      ZFecFSEncoder.Getattr H host fs path stbuf
        = (0, { st with st_size := EncodedFile.Size H st.st_size (fs.sharesRequired : Int) }) ∧
      (0 ≤ st.st_size → 1 ≤ fs.sharesRequired →
        EncodedFile.Size H st.st_size (fs.sharesRequired : Int)
          = Int.ceil ((st.st_size : ℚ) / ((fs.sharesRequired : Int) : ℚ)) + (H : Int))) ∧
    (st.st_mode &&& S_IFMT ≠ S_IFREG →
      ZFecFSEncoder.Getattr H host fs path stbuf = (0, st)) := by
  constructor
  · intro hreg
    refine ⟨?_, fun h0 hK => EncodedFile.Size_ceil H st.st_size _ h0 (by omega)⟩
    simp only [ZFecFSEncoder.Getattr, hdec, hidx, if_true, hstat, hreg,
      ZFecFSEncoder.EncodedSize]
  · intro hreg
    simp only [ZFecFSEncoder.Getattr, hdec, hidx, if_true, hstat, if_neg hreg]

/-- C11 on a concrete file: K = 2, H = 3, a regular file of five bytes is shown with six. -/
theorem ZFecFSEncoder.Getattr_file_witness :
    ZFecFSEncoder.Getattr 3 demoHost demoFs "/00/f" Stat.zero
        = (0, { st_ino := 42, st_mode := 0o100644, st_nlink := 1, st_size := 6 }) ∧
      EncodedFile.Size 3 5 2 = Int.ceil (((5 : Int) : ℚ) / (((2 : Nat) : Int) : ℚ)) + ((3 : Nat) : Int) :=
  ((ZFecFSEncoder.Getattr_file 3 demoHost demoFs "/00/f" Stat.zero
      { st_ino := 42, st_mode := 0o100644, st_nlink := 1, st_size := 5 }
      { shareIndex := 0, indexGiven := true, path := "src/f" } (by decide) rfl rfl).1
    (by decide)).imp id (fun h => h (by decide) (by decide))

/-- C12 (root listing): for every N, `Readdir` on directory handle 0 calls the filler with
`"."`, `".."` and then `EncodeShareIndex(i)` for `i = 0, …, N − 1` in this order, each time
without a stat and with offset 0, and returns 0 whatever the filler answers; `Getattr` on a
path that decodes without a share index returns 0 and reports an otherwise zeroed stat with
mode `S_IFDIR | 0755` and link count `N + 2`. -/
theorem ZFecFSEncoder.Readdir_root (H : Nat) (host : Host) (fs : ZFecFSEncoder)
    (filler : List FillerCall → FillerCall → Int) (offset : Nat) (d : DirStream)
    (path : String) (stbuf : Stat) (decodedPath : DecodedPath)
    (hdec : host.DecodePath path fs.source = some decodedPath)
    (hidx : decodedPath.indexGiven = false) :
    ZFecFSEncoder.Readdir H host fs filler offset 0 d
        = (0, { name := ".", stat := none, off := 0 } :: { name := "..", stat := none, off := 0 } ::
            (List.range fs.numShares).map
              (fun i => { name := host.EncodeShareIndex i, stat := none, off := 0 })) ∧
      ZFecFSEncoder.Getattr H host fs path stbuf
        = (0, { st_ino := 0, st_mode := S_IFDIR ||| 0o755, st_nlink := fs.numShares + 2,
                st_size := 0 }) := by
  constructor
  · simp only [ZFecFSEncoder.Readdir, if_true]
    rw [foldl_append_singleton
      (fun i => ({ name := host.EncodeShareIndex i, stat := none, off := 0 } : FillerCall))]
    rfl
  · simp only [ZFecFSEncoder.Getattr, hdec, hidx, Bool.false_eq_true, if_false, Stat.zero]

/-- C12 on a concrete facade: N = 3 gives the five entries `.`, `..`, `00`, `01`, `02`, and
the root has link count 5. -/
theorem ZFecFSEncoder.Readdir_root_witness :
    ZFecFSEncoder.Readdir 3 demoHost demoFs (fun _ _ => 1) 0 0 demoDir
        = (0, [{ name := ".", stat := none, off := 0 }, { name := "..", stat := none, off := 0 },
               { name := "00", stat := none, off := 0 }, { name := "01", stat := none, off := 0 },
               { name := "02", stat := none, off := 0 }]) ∧
      ZFecFSEncoder.Getattr 3 demoHost demoFs "/" Stat.zero
        = (0, { st_ino := 0, st_mode := 0o40755, st_nlink := 5, st_size := 0 }) :=
  ZFecFSEncoder.Readdir_root 3 demoHost demoFs (fun _ _ => 1) 0 demoDir "/" Stat.zero
    { shareIndex := 0, indexGiven := false, path := "src" } (by decide) rfl

/-- C13 (error mapping of `ZFecFSEncoder::Open`): when the path does not decode, `Open`
returns `-ENOENT` whatever the flags; when it decodes and `flags & O_ACCMODE` is not
`O_RDONLY`, `Open` returns `-EACCES`; in both cases `EncodedFile::Open` is not called and the
file handle keeps its value.  `EncodedFile::Open` is called only for a path that decodes and
is opened read-only, and then once, with the decoded path. -/
theorem ZFecFSEncoder.Open_errors (host : Host) (fs : ZFecFSEncoder) (path : String)
    (fileInfo : FuseFileInfo) :
    (host.DecodePath path fs.source = none →
      (ZFecFSEncoder.Open host fs path fileInfo).ret = -ENOENT ∧
      (ZFecFSEncoder.Open host fs path fileInfo).opened = [] ∧
      (ZFecFSEncoder.Open host fs path fileInfo).fileInfo.fh = fileInfo.fh) ∧
    (∀ decodedPath, host.DecodePath path fs.source = some decodedPath →
      fileInfo.flags &&& O_ACCMODE ≠ O_RDONLY →
      (ZFecFSEncoder.Open host fs path fileInfo).ret = -EACCES ∧
      (ZFecFSEncoder.Open host fs path fileInfo).opened = [] ∧
      (ZFecFSEncoder.Open host fs path fileInfo).fileInfo.fh = fileInfo.fh) ∧
    ((ZFecFSEncoder.Open host fs path fileInfo).opened ≠ [] →
      ∃ decodedPath, host.DecodePath path fs.source = some decodedPath ∧
        fileInfo.flags &&& O_ACCMODE = O_RDONLY ∧
        (ZFecFSEncoder.Open host fs path fileInfo).opened = [decodedPath]) := by
  refine ⟨?_, ?_, ?_⟩
  · intro hdec
    simp only [ZFecFSEncoder.Open, hdec, and_self]
  · intro decodedPath hdec hacc
    simp only [ZFecFSEncoder.Open, hdec, if_pos hacc, and_self]
  · intro hopened
    cases hdec : host.DecodePath path fs.source with
    | none => simp [ZFecFSEncoder.Open, hdec] at hopened
    | some decodedPath =>
      by_cases hacc : fileInfo.flags &&& O_ACCMODE ≠ O_RDONLY
      · simp [ZFecFSEncoder.Open, hdec, hacc] at hopened
      · refine ⟨decodedPath, rfl, not_not.mp hacc, ?_⟩
        simp only [ZFecFSEncoder.Open, hdec, if_neg hacc]
        cases host.EncodedFileOpen fs.sharesRequired decodedPath <;> rfl

/-- C15 at its failing input: K = 2, H = 3 and a source directory holding the regular files
`f` (five bytes, shown by `Getattr` with size 6) and `g`.  `Readdir` on a non-zero handle
passes the filler a stat with `st_size = 3` for `f` and `st_size = 5` for `g`: the local stat
starts zeroed and every entry gets `EncodedSize` of the value left by the entry before it.
The sizes of the files are never read: the filler calls are the same on every host. -/
theorem ZFecFSEncoder.Readdir_sizes_ignore_files :
    ZFecFSEncoder.Readdir 3 demoHost demoFs (fun _ _ => 0) 0 1 demoDir
        = (0, [{ name := "f", off := 1,
                 stat := some { st_ino := 42, st_mode := S_IFREG, st_nlink := 0, st_size := 3 } },
               { name := "g", off := 2,
                 stat := some { st_ino := 43, st_mode := S_IFREG, st_nlink := 0,
                                st_size := 5 } }]) ∧
      ZFecFSEncoder.Getattr 3 demoHost demoFs "/00/f" Stat.zero
        = (0, { st_ino := 42, st_mode := 0o100644, st_nlink := 1, st_size := 6 }) ∧
      ∀ (H : Nat) (host1 host2 : Host) (fs : ZFecFSEncoder)
        (filler : List FillerCall → FillerCall → Int) (offset fh : Nat) (d : DirStream),
        fh ≠ 0 → ZFecFSEncoder.Readdir H host1 fs filler offset fh d
          = ZFecFSEncoder.Readdir H host2 fs filler offset fh d := by
  refine ⟨by decide, by decide, ?_⟩
  intro H host1 host2 fs filler offset fh d hfh
  simp only [ZFecFSEncoder.Readdir, if_neg hfh]

/-- C17, as stated, fails: with K = 2 and H = 3, `FileDecoder::Open` accepts the single share
file of three bytes whose header says `required = 2`, `excessBytes = 1`; the recorded values
give `(encodedSize − H) · K − excessBytes = −1`. -/
theorem FileDecoder.Open_accepts_negative_size :
    ∃ d, FileDecoder.Open codec3 [File [2, 0, 1]] parityFec = .ok d ∧
      d.encodedSize = (codec3.size : Int) ∧ d.metadata.excessBytes = 1 ∧
      (d.encodedSize - (codec3.size : Int)) * (parityFec.sharesRequired : Int)
        - (d.metadata.excessBytes : Int) = -1 ∧
      d.Size codec3 = -1 :=
  ⟨_, rfl, by decide, rfl, by decide, by decide⟩

/-- C17, amended: every handle `FileDecoder::Open` returns has `required = K`,
`excessBytes < K` and `encodedSize ≥ H`; when moreover `encodedSize > H` or `excessBytes = 0`,
then `(encodedSize − H) · K − excessBytes ≥ 0` and `Size()` is not negative. -/
theorem FileDecoder.Open_recorded_values (codec : MetadataCodec) (files : List AbstractFile)
    (fec : FecWrapper) (d : FileDecoder) (hopen : FileDecoder.Open codec files fec = .ok d) :
    d.metadata.required = fec.sharesRequired ∧ d.metadata.excessBytes < fec.sharesRequired ∧
      (codec.size : Int) ≤ d.encodedSize ∧
      ((codec.size : Int) < d.encodedSize ∨ d.metadata.excessBytes = 0 →
        0 ≤ (d.encodedSize - (codec.size : Int)) * (fec.sharesRequired : Int)
          - (d.metadata.excessBytes : Int) ∧
        0 ≤ d.Size codec) := by
  obtain ⟨front, rest, firstMeta, _, _, _, hreq, hexc, hsize, rfl⟩ :=
    (FileDecoder.Open_ok_iff codec files fec d).mp hopen
  simp only [FileDecoder.Size, FileDecoder.SizeOf]
  refine ⟨hreq, by omega, hsize, ?_⟩
  intro hcase
  rw [hreq]
  have hnonneg : 0 ≤ (front.Size - (codec.size : Int)) * (fec.sharesRequired : Int)
      - (firstMeta.excessBytes : Int) := by
    rcases hcase with hgt | hzero
    · have h1 : (1 : Int) ≤ front.Size - (codec.size : Int) := by omega
      have h2 : (0 : Int) ≤ (fec.sharesRequired : Int) := Int.ofNat_nonneg _
      have h3 : ((firstMeta.excessBytes : Nat) : Int) < (fec.sharesRequired : Int) := by
        exact_mod_cast (by omega : firstMeta.excessBytes < fec.sharesRequired)
      nlinarith
    · rw [hzero]
      have h1 : (0 : Int) ≤ front.Size - (codec.size : Int) := by omega
      have h2 : (0 : Int) ≤ (fec.sharesRequired : Int) := Int.ofNat_nonneg _
      have := mul_nonneg h1 h2
      simpa using this
  exact ⟨hnonneg, hnonneg⟩

/-- C17, amended, on the handle for shares 0 and 1 of `"abcde"`: the recorded values are
`required = 2`, `excessBytes = 1`, `encodedSize = 6 > 3` and the decoded size is 5. -/
theorem FileDecoder.Open_recorded_values_witness :
    decoder01.metadata.required = parityFec.sharesRequired ∧
      decoder01.metadata.excessBytes < parityFec.sharesRequired ∧
      (codec3.size : Int) ≤ decoder01.encodedSize ∧
      ((codec3.size : Int) < decoder01.encodedSize ∨ decoder01.metadata.excessBytes = 0 →
        0 ≤ (decoder01.encodedSize - (codec3.size : Int)) * (parityFec.sharesRequired : Int)
          - (decoder01.metadata.excessBytes : Int) ∧
        0 ≤ decoder01.Size codec3) :=
  FileDecoder.Open_recorded_values codec3 [share0, share1] parityFec decoder01 rfl

/-! ## `FileDecoder::NormalizeIndices` as a rearrangement -/

theorem nodup_getElem?_inj {α : Type} {l : List α} (hnd : l.Nodup) {a b : Nat} {x : α}
    (ha : l[a]? = some x) (hb : l[b]? = some x) : a = b := by
  obtain ⟨ha1, ha2⟩ := List.getElem?_eq_some.mp ha
  obtain ⟨hb1, hb2⟩ := List.getElem?_eq_some.mp hb
  exact (List.Nodup.getElem_inj_iff hnd).mp (ha2.trans hb2.symm)

theorem perm_of_getElem?_perm {α : Type} (l1 l : List α) (τ : Equiv.Perm Nat)
    (hnd : l.Nodup) (h : ∀ s : Nat, l1[s]? = l[τ s]?) : l1.Perm l := by
  have hnd1 : l1.Nodup := by
    rw [List.nodup_iff_getElem?_ne_getElem?]
    intro i j hij hj heq
    have hx : l1[j]? = some l1[j] := List.getElem?_eq_getElem hj
    have hi : l1[i]? = some l1[j] := heq.trans hx
    rw [h i] at hi
    rw [h j] at hx
    have := τ.injective (nodup_getElem?_inj hnd hi hx)
    omega
  rw [List.perm_ext_iff_of_nodup hnd1 hnd]
  intro a
  rw [List.mem_iff_getElem?, List.mem_iff_getElem?]
  constructor
  · rintro ⟨s, hs⟩
    exact ⟨τ s, by rw [← h s]; exact hs⟩
  · rintro ⟨t, ht⟩
    exact ⟨τ.symm t, by rw [h, Equiv.apply_symm_apply]; exact ht⟩

theorem nodup_zip_of_left {α β : Type} (l : List α) (m : List β) (hnd : l.Nodup) :
    (l.zip m).Nodup := by
  rw [List.nodup_iff_getElem?_ne_getElem?]
  intro i j hij hj heq
  have hx : (l.zip m)[j]? = some (l.zip m)[j] := List.getElem?_eq_getElem hj
  have hi : (l.zip m)[i]? = some (l.zip m)[j] := heq.trans hx
  have h1 := (List.getElem?_zip_eq_some.mp hx).1
  have h2 := (List.getElem?_zip_eq_some.mp hi).1
  have := nodup_getElem?_inj hnd h2 h1
  omega

theorem perm_lt_iff_of_fixes_ge {K : Nat} (τ : Equiv.Perm Nat)
    (hfix : ∀ s : Nat, K ≤ s → τ s = s) (s : Nat) : τ s < K ↔ s < K := by
  constructor
  · intro h
    by_contra hge
    rw [hfix s (by omega)] at h
    exact hge h
  · intro h
    by_contra hge
    have h1 : τ (τ s) = τ s := hfix (τ s) (by omega)
    have h2 : τ s = s := τ.injective h1
    omega

/-- C7 (normalisation stability): for every K and every vector of K pairwise distinct share
indices (bytes) with its K pointers, `FileDecoder::NormalizeIndices` returns as soon as it is
given more than `2 · K` steps.  The returned vectors have K slots again and their
(index, pointer) pairs are a permutation of the input pairs; every input slot that holds a
systematic index `j < K` has been moved, with its pointer, to slot `j`; and so every returned
slot whose index is below K holds its own index. -/
theorem FileDecoder.NormalizeIndices_stable {α : Type} (K fuel : Nat) (ptrs : List α)
    (indices : List Nat) (hlenI : indices.length = K) (hlenP : ptrs.length = K)
    (hnd : indices.Nodup) (hsmall : ∀ x ∈ indices, x < 256) (hfuel : 2 * K < fuel) :
    ∃ ptrs1 indices1,
      FileDecoder.NormalizeIndices K fuel ptrs indices = .ok (ptrs1, indices1) ∧
      indices1.length = K ∧ ptrs1.length = K ∧
      (indices1.zip ptrs1).Perm (indices.zip ptrs) ∧
      (∀ t, t < K → ∀ j, indices[t]? = some j → j < K →
        indices1[j]? = some j ∧ ptrs1[j]? = ptrs[t]?) ∧
      ∀ i, i < K → ∀ x, indices1[i]? = some x → x < K → x = i := by
  obtain ⟨ptrs1, indices1, hrun, hinv, τ, hfix, hI, hP⟩ :=
    FileDecoder.NormalizeIndices_spec K fuel ptrs indices (by omega) (by omega) hnd hsmall hfuel
  have hlen1 : indices1.length = K := by
    have h1 : indices1[K]? = none := by
      rw [hI K, hfix K (le_refl _)]
      exact List.getElem?_eq_none (by omega)
    have h2 := List.getElem?_eq_none_iff.mp h1
    have h3 := hinv.lenI
    omega
  have hlen2 : ptrs1.length = K := by
    have h1 : ptrs1[K]? = none := by
      rw [hP K, hfix K (le_refl _)]
      exact List.getElem?_eq_none (by omega)
    have h2 := List.getElem?_eq_none_iff.mp h1
    have h3 := hinv.lenP
    omega
  refine ⟨ptrs1, indices1, hrun, hlen1, hlen2, ?_, ?_, hinv.fixed⟩
  · apply perm_of_getElem?_perm _ _ τ (nodup_zip_of_left indices ptrs hnd)
    intro s
    apply Option.ext
    intro z
    simp only [Option.mem_def]
    rw [List.getElem?_zip_eq_some, List.getElem?_zip_eq_some, hI s, hP s]
  · intro t ht j hj hjK
    have hs : τ.symm t < K := by
      have := perm_lt_iff_of_fixes_ge τ hfix (τ.symm t)
      rw [Equiv.apply_symm_apply] at this
      exact this.mp ht
    have h1 : indices1[τ.symm t]? = some j := by
      rw [hI, Equiv.apply_symm_apply]; exact hj
    have h2 : j = τ.symm t := hinv.fixed _ hs j h1 hjK
    have h3 : τ j = t := by rw [h2, Equiv.apply_symm_apply]
    rw [← h2] at h1
    exact ⟨h1, by rw [hP, h3]⟩

/-- C7 on the index vector `[2, 0, 1]` of three systematic shares (K = 3) with the pointers
`[10, 11, 12]`: seven steps are enough, and share 0 ends in slot 0 with pointer 11, share 1 in
slot 1 with pointer 12 and share 2 in slot 2 with pointer 10. -/
theorem FileDecoder.NormalizeIndices_stable_witness :
    ∃ ptrs1 indices1,
      FileDecoder.NormalizeIndices 3 7 [10, 11, 12] [2, 0, 1] = .ok (ptrs1, indices1) ∧
      indices1.length = 3 ∧ ptrs1.length = 3 ∧
      (indices1.zip ptrs1).Perm ([2, 0, 1].zip [10, 11, 12]) ∧
      (∀ t, t < 3 → ∀ j, [2, 0, 1][t]? = some j → j < 3 →
        indices1[j]? = some j ∧ ptrs1[j]? = [10, 11, 12][t]?) ∧
      ∀ i, i < 3 → ∀ x, indices1[i]? = some x → x < 3 → x = i :=
  FileDecoder.NormalizeIndices_stable 3 7 [10, 11, 12] [2, 0, 1] rfl rfl (by decide)
    (by decide) (by decide)

/-- C14 (`NormalizeIndices` rearranges pairs): for index and pointer vectors with at least K
slots, pairwise distinct byte-sized indices and more than `2 · K` steps,
`FileDecoder::NormalizeIndices` returns vectors whose (index, pointer) pairs in the slots below
K are a permutation of the input pairs of those slots, so that every index is still next to
the pointer it came with, and whose slots from K on are unchanged. -/
theorem FileDecoder.NormalizeIndices_rearranges {α : Type} (K fuel : Nat) (ptrs : List α)
    (indices : List Nat) (hlenI : K ≤ indices.length) (hlenP : K ≤ ptrs.length)
    (hnd : indices.Nodup) (hsmall : ∀ x ∈ indices, x < 256) (hfuel : 2 * K < fuel) :
    ∃ ptrs1 indices1,
      FileDecoder.NormalizeIndices K fuel ptrs indices = .ok (ptrs1, indices1) ∧
      ((indices1.zip ptrs1).take K).Perm ((indices.zip ptrs).take K) ∧
      indices1.drop K = indices.drop K ∧ ptrs1.drop K = ptrs.drop K := by
  obtain ⟨ptrs1, indices1, hrun, _, τ, hfix, hI, hP⟩ :=
    FileDecoder.NormalizeIndices_spec K fuel ptrs indices hlenI hlenP hnd hsmall hfuel
  refine ⟨ptrs1, indices1, hrun, ?_, ?_, ?_⟩
  · apply perm_of_getElem?_perm _ _ τ
      ((nodup_zip_of_left indices ptrs hnd).sublist (List.take_sublist _ _))
    intro s
    have hlt := perm_lt_iff_of_fixes_ge τ hfix s
    rw [List.getElem?_take, List.getElem?_take]
    by_cases hs : s < K
    · rw [if_pos hs, if_pos (hlt.mpr hs)]
      apply Option.ext
      intro z
      simp only [Option.mem_def]
      rw [List.getElem?_zip_eq_some, List.getElem?_zip_eq_some, hI s, hP s]
    · rw [if_neg hs, if_neg (fun h => hs (hlt.mp h))]
  · apply List.ext_getElem?
    intro s
    rw [List.getElem?_drop, List.getElem?_drop, hI, hfix _ (by omega)]
  · apply List.ext_getElem?
    intro s
    rw [List.getElem?_drop, List.getElem?_drop, hP, hfix _ (by omega)]

/-- C14 on K = 3 with a fourth file: indices `[2, 0, 7, 1]` with pointers `[10, 11, 12, 13]`
become `[0, 7, 2, 1]` with `[11, 12, 10, 13]`. -/
theorem FileDecoder.NormalizeIndices_rearranges_witness :
    ∃ ptrs1 indices1,
      FileDecoder.NormalizeIndices 3 7 [10, 11, 12, 13] [2, 0, 7, 1] = .ok (ptrs1, indices1) ∧
      ((indices1.zip ptrs1).take 3).Perm (([2, 0, 7, 1].zip [10, 11, 12, 13]).take 3) ∧
      indices1.drop 3 = [2, 0, 7, 1].drop 3 ∧ ptrs1.drop 3 = [10, 11, 12, 13].drop 3 :=
  FileDecoder.NormalizeIndices_rearranges 3 7 [10, 11, 12, 13] [2, 0, 7, 1] (by decide)
    (by decide) (by decide) (by decide) (by decide)

/-! ## The accesses of the interleave -/

/-- The accesses listed by `CopyToNthElement.accesses` are the ones `CopyToNthElement` makes:
a run that returns has read and written exactly at the listed positions, in order, and all of
them lie inside the block and the buffer. -/
theorem FileDecoder.CopyToNthElement_accesses (src : List Nat) (outEnd stride : Nat) :
    ∀ (fuel : Nat) (buf : List Nat) (out inp : Nat) (buf1 : List Nat),
      FileDecoder.CopyToNthElement fuel buf out outEnd src inp stride = .ok buf1 →
      ∃ acc, FileDecoder.CopyToNthElement.accesses fuel out outEnd inp stride = .ok acc ∧
        buf1 = acc.foldl (fun b a => b.set a.2 (src.getD a.1 0)) buf ∧
        ∀ a ∈ acc, a.1 < src.length ∧ a.2 < buf.length := by
  intro fuel
  induction fuel with
  | zero =>
    intro buf out inp buf1 h
    simp [FileDecoder.CopyToNthElement] at h
  | succ f ih =>
    intro buf out inp buf1 h
    rw [FileDecoder.CopyToNthElement] at h
    rw [FileDecoder.CopyToNthElement.accesses]
    by_cases hlt : out < outEnd
    · rw [if_pos hlt] at h
      rw [if_pos hlt]
      cases hs : src[inp]? with
      | none => rw [hs] at h; cases h
      | some byte =>
        rw [hs] at h
        simp only [] at h
        by_cases hb : out < buf.length
        · rw [if_pos hb] at h
          obtain ⟨acc, hacc, hbuf, hin⟩ := ih _ _ _ _ h
          rw [hacc]
          obtain ⟨hil, hbyte⟩ := List.getElem?_eq_some.mp hs
          refine ⟨(inp, out) :: acc, rfl, ?_, ?_⟩
          · rw [hbuf, List.foldl_cons]
            simp only [List.getD_eq_getElem?_getD, hs, Option.getD_some]
          · intro a ha
            rcases List.mem_cons.mp ha with rfl | ha
            · exact ⟨hil, hb⟩
            · have := hin a ha
              simpa using this
        · rw [if_neg hb] at h
          cases h
    · rw [if_neg hlt] at h
      rw [if_neg hlt]
      cases h
      exact ⟨[], rfl, rfl, fun a ha => by cases ha⟩

theorem FileDecoder.CopyToNthElement.accesses_spec (K n : Nat) (hK : 0 < K) :
    ∀ (fuel out inp : Nat), n - out < fuel →
      ∃ acc, FileDecoder.CopyToNthElement.accesses fuel out n inp K = .ok acc ∧
        (acc.map Prod.snd).Nodup ∧
        (∀ q, q ∈ acc.map Prod.snd ↔ out ≤ q ∧ q < n ∧ (q - out) % K = 0) ∧
        ∀ a ∈ acc, a.1 = inp + (a.2 - out) / K := by
  intro fuel
  induction fuel with
  | zero => intro out inp hf; omega
  | succ f ih =>
    intro out inp hf
    rw [FileDecoder.CopyToNthElement.accesses]
    by_cases hlt : out < n
    · rw [if_pos hlt]
      obtain ⟨acc, hrun, hnd, hmem, hread⟩ := ih (out + K) (inp + 1) (by omega)
      rw [hrun]
      have hstep : ∀ q, out ≤ q → q ≠ out →
          ((out + K ≤ q ∧ q < n ∧ (q - (out + K)) % K = 0) ↔
            (out ≤ q ∧ q < n ∧ (q - out) % K = 0)) ∧
          (out + K ≤ q → (q - out) / K = (q - (out + K)) / K + 1) := by
        intro q hle hne
        obtain ⟨hiff, hdiv⟩ := stride_step K (q - out) hK (by omega)
        have e1 : q - (out + K) = q - out - K := by omega
        rw [e1]
        refine ⟨⟨fun h => ⟨hle, h.2.1, hiff.mpr ⟨by omega, h.2.2⟩⟩, fun h => ?_⟩,
          fun h => hdiv (by omega)⟩
        obtain ⟨h4, h5⟩ := hiff.mp h.2.2
        exact ⟨by omega, h.2.1, h5⟩
      refine ⟨(inp, out) :: acc, rfl, ?_, ?_, ?_⟩
      · rw [List.map_cons, List.nodup_cons]
        refine ⟨fun hin => ?_, hnd⟩
        have := (hmem out).mp hin
        omega
      · intro q
        rw [List.map_cons, List.mem_cons, hmem q]
        by_cases hq : q = out
        · subst hq
          simp [hlt]
        · by_cases hle : out ≤ q
          · rw [(hstep q hle hq).1]
            simp [hq]
          · constructor
            · rintro (h | h)
              · exact absurd h hq
              · omega
            · intro h
              omega
      · intro a ha
        rcases List.mem_cons.mp ha with rfl | ha
        · simp
        · have hq := (hmem a.2).mp (List.mem_map_of_mem Prod.snd ha)
          rw [hread a ha, (hstep a.2 (by omega) (by omega)).2 hq.1]
          omega
    · rw [if_neg hlt]
      refine ⟨[], rfl, List.nodup_nil, fun q => ?_, fun a ha => by cases ha⟩
      simp only [List.map_nil, List.not_mem_nil, false_iff]
      omega

theorem FileDecoder.Read.interleaveAccesses_step (fuel K oc n k : Nat)
    (acc : List (Nat × Nat × Nat)) (hoc : oc < K) (hk : k < K) (hfuel : n < fuel)
    (hnd : (acc.map (fun a => a.2.2)).Nodup)
    (hmem : ∀ q, q ∈ acc.map (fun a => a.2.2) ↔ q < n ∧ (q + oc) % K < k)
    (hacc : ∀ a ∈ acc, a.1 = (a.2.2 + oc) % K ∧ a.2.1 = (a.2.2 + oc) / K) :
    ∃ column, (if k < oc then FileDecoder.CopyToNthElement.accesses fuel (k + K - oc) n 1 K
        else FileDecoder.CopyToNthElement.accesses fuel (k - oc) n 0 K) = .ok column ∧
      ((acc ++ column.map (fun a => (k, a.1, a.2))).map (fun a => a.2.2)).Nodup ∧
      (∀ q, q ∈ (acc ++ column.map (fun a => (k, a.1, a.2))).map (fun a => a.2.2) ↔
        q < n ∧ (q + oc) % K < k + 1) ∧
      ∀ a ∈ acc ++ column.map (fun a => (k, a.1, a.2)),
        a.1 = (a.2.2 + oc) % K ∧ a.2.1 = (a.2.2 + oc) / K := by
  have hK : 0 < K := by omega
  have hcp := fun q => column_positions K oc k q hoc hk
  have hgoal : ∀ start inp : Nat,
      (∀ q, (start ≤ q ∧ (q - start) % K = 0 ↔ (q + oc) % K = k) ∧
        ((q + oc) % K = k → inp + (q - start) / K = (q + oc) / K)) →
      ∃ column, FileDecoder.CopyToNthElement.accesses fuel start n inp K = .ok column ∧
        ((acc ++ column.map (fun a => (k, a.1, a.2))).map (fun a => a.2.2)).Nodup ∧
        (∀ q, q ∈ (acc ++ column.map (fun a => (k, a.1, a.2))).map (fun a => a.2.2) ↔
          q < n ∧ (q + oc) % K < k + 1) ∧
        ∀ a ∈ acc ++ column.map (fun a => (k, a.1, a.2)),
          a.1 = (a.2.2 + oc) % K ∧ a.2.1 = (a.2.2 + oc) / K := by
    intro start inp hcp
    obtain ⟨column, hrun, hcnd, hcmem, hcread⟩ :=
      FileDecoder.CopyToNthElement.accesses_spec K n hK fuel start inp (by omega)
    have hwrites : (acc ++ column.map (fun a => (k, a.1, a.2))).map (fun a => a.2.2)
        = acc.map (fun a => a.2.2) ++ column.map Prod.snd := by
      rw [List.map_append, List.map_map]
      rfl
    have hcol : ∀ q, q ∈ column.map Prod.snd ↔ q < n ∧ (q + oc) % K = k := by
      intro q
      rw [hcmem q]
      constructor
      · intro h
        exact ⟨h.2.1, (hcp q).1.mp ⟨h.1, h.2.2⟩⟩
      · intro h
        have := (hcp q).1.mpr h.2
        exact ⟨this.1, h.1, this.2⟩
    refine ⟨column, hrun, ?_, ?_, ?_⟩
    · rw [hwrites, List.nodup_append]
      refine ⟨hnd, hcnd, ?_⟩
      intro q h1 h2
      have := (hmem q).mp h1
      have := (hcol q).mp h2
      omega
    · intro q
      rw [hwrites, List.mem_append, hmem q, hcol q]
      constructor
      · rintro (h | h)
        · exact ⟨h.1, by omega⟩
        · exact ⟨h.1, by omega⟩
      · intro h
        by_cases hlt : (q + oc) % K < k
        · exact Or.inl ⟨h.1, hlt⟩
        · exact Or.inr ⟨h.1, by omega⟩
    · intro a ha
      rcases List.mem_append.mp ha with ha | ha
      · exact hacc a ha
      · obtain ⟨b, hb, rfl⟩ := List.mem_map.mp ha
        have hq := (hcol b.2).mp (List.mem_map_of_mem Prod.snd hb)
        refine ⟨hq.2.symm, ?_⟩
        show b.1 = (b.2 + oc) / K
        rw [hcread b hb]
        exact (hcp b.2).2 hq.2
  by_cases hko : k < oc
  · rw [if_pos hko]
    simp only [if_pos hko] at hcp
    exact hgoal _ _ hcp
  · rw [if_neg hko]
    simp only [if_neg hko] at hcp
    exact hgoal _ _ hcp

theorem FileDecoder.Read.interleaveAccesses_spec (fuel K oc n : Nat) (hoc : oc < K)
    (hfuel : n < fuel) :
    ∃ acc, FileDecoder.Read.interleaveAccesses fuel K oc n = .ok acc ∧
      (acc.map (fun a => a.2.2)).Nodup ∧
      (∀ q, q ∈ acc.map (fun a => a.2.2) ↔ q < n) ∧
      ∀ a ∈ acc, a.1 = (a.2.2 + oc) % K ∧ a.2.1 = (a.2.2 + oc) / K := by
  have hK : 0 < K := by omega
  unfold FileDecoder.Read.interleaveAccesses
  have key : ∀ k, k ≤ K → ∃ acc,
      (List.range k).foldlM
        (fun (acc : List (Nat × Nat × Nat)) (i : Nat) =>
          match (if i < oc then
              FileDecoder.CopyToNthElement.accesses fuel (i + K - oc) n 1 K
            else
              FileDecoder.CopyToNthElement.accesses fuel (i - oc) n 0 K) with
          | .error e => (.error e : Except Failure (List (Nat × Nat × Nat)))
          | .ok column => .ok (acc ++ column.map (fun (a : Nat × Nat) => (i, a.1, a.2))))
        [] = .ok acc ∧
      (acc.map (fun a => a.2.2)).Nodup ∧
      (∀ q, q ∈ acc.map (fun a => a.2.2) ↔ q < n ∧ (q + oc) % K < k) ∧
      ∀ a ∈ acc, a.1 = (a.2.2 + oc) % K ∧ a.2.1 = (a.2.2 + oc) / K := by
    intro k
    induction k with
    | zero =>
      intro _
      refine ⟨[], rfl, List.nodup_nil, fun q => ?_, fun a ha => by cases ha⟩
      simp
    | succ k ih =>
      intro hk
      obtain ⟨acc, hrun, hnd, hmem, hacc⟩ := ih (by omega)
      obtain ⟨column, hcol, hnd1, hmem1, hacc1⟩ :=
        FileDecoder.Read.interleaveAccesses_step fuel K oc n k acc hoc (by omega) hfuel hnd
          hmem hacc
      refine ⟨acc ++ column.map (fun a => (k, a.1, a.2)), ?_, hnd1, hmem1, hacc1⟩
      rw [List.range_succ, List.foldlM_append, hrun]
      simp only [List.foldlM_cons, List.foldlM_nil]
      show (match (if k < oc then
              FileDecoder.CopyToNthElement.accesses fuel (k + K - oc) n 1 K
            else
              FileDecoder.CopyToNthElement.accesses fuel (k - oc) n 0 K) with
          | .error e => (.error e : Except Failure (List (Nat × Nat × Nat)))
          | .ok column => .ok (acc ++ column.map (fun (a : Nat × Nat) => (k, a.1, a.2)))) >>= pure = _
      rw [hcol]
      rfl
  obtain ⟨acc, hrun, hnd, hmem, hacc⟩ := key K (le_refl _)
  refine ⟨acc, hrun, hnd, fun q => ?_, hacc⟩
  rw [hmem q]
  have := Nat.mod_lt (q + oc) hK
  exact ⟨fun h => h.1, fun h => ⟨h, this⟩⟩

theorem foldl_set_length {β : Type} (f : β → Nat) (g : β → Nat) (acc : List β)
    (buf : List Nat) : (acc.foldl (fun b a => b.set (f a) (g a)) buf).length = buf.length := by
  induction acc generalizing buf with
  | nil => rfl
  | cons a acc ih => rw [List.foldl_cons, ih, List.length_set]

/-- The accesses listed by `interleaveAccesses` are the ones the interleave loop of
`FileDecoder::Read` makes: a run that returns has, in the listed order, copied the byte at the
listed position of the block of the listed column to the listed position of the caller's
buffer, every position lying inside its block and inside the buffer. -/
theorem FileDecoder.Read.interleave_accesses (fuel K oc n : Nat) (indices : List Nat)
    (inPtrs outPtrs : List (List Nat)) (buf buf1 : List Nat)
    (h : FileDecoder.Read.interleave fuel K oc n indices inPtrs outPtrs buf = .ok buf1) :
    ∃ acc, FileDecoder.Read.interleaveAccesses fuel K oc n = .ok acc ∧
      buf1 = acc.foldl (fun b a => b.set a.2.2
        ((FileDecoder.Read.decoded K indices inPtrs outPtrs a.1).getD a.2.1 0)) buf ∧
      ∀ a ∈ acc, a.2.1 < (FileDecoder.Read.decoded K indices inPtrs outPtrs a.1).length ∧
        a.2.2 < buf.length := by
  unfold FileDecoder.Read.interleave at h
  unfold FileDecoder.Read.interleaveAccesses
  have key : ∀ k b1,
      (List.range k).foldlM
        (fun (outBuffer : List Nat) (i : Nat) =>
          match indices[i]?, inPtrs[i]?, outPtrs[i]? with
          | some index, some inBlock, some outBlock =>
            if i < oc then
              FileDecoder.CopyToNthElement fuel outBuffer (i + K - oc) n
                (if index < K then inBlock else outBlock) 1 K
            else
              FileDecoder.CopyToNthElement fuel outBuffer (i - oc) n
                (if index < K then inBlock else outBlock) 0 K
          | _, _, _ => .error .outOfBounds)
        buf = .ok b1 →
      ∃ acc,
        (List.range k).foldlM
          (fun (acc : List (Nat × Nat × Nat)) (i : Nat) =>
            match (if i < oc then
                FileDecoder.CopyToNthElement.accesses fuel (i + K - oc) n 1 K
              else
                FileDecoder.CopyToNthElement.accesses fuel (i - oc) n 0 K) with
            | .error e => (.error e : Except Failure (List (Nat × Nat × Nat)))
            | .ok column => .ok (acc ++ column.map (fun (a : Nat × Nat) => (i, a.1, a.2))))
          [] = .ok acc ∧
        b1 = acc.foldl (fun b a => b.set a.2.2
          ((FileDecoder.Read.decoded K indices inPtrs outPtrs a.1).getD a.2.1 0)) buf ∧
        ∀ a ∈ acc, a.2.1 < (FileDecoder.Read.decoded K indices inPtrs outPtrs a.1).length ∧
          a.2.2 < buf.length := by
    intro k
    induction k with
    | zero =>
      intro b1 hrun
      cases hrun
      exact ⟨[], rfl, rfl, fun a ha => by cases ha⟩
    | succ k ih =>
      intro b1 hrun
      rw [List.range_succ, List.foldlM_append] at hrun
      cases hprev : (List.range k).foldlM
        (fun (outBuffer : List Nat) (i : Nat) =>
          match indices[i]?, inPtrs[i]?, outPtrs[i]? with
          | some index, some inBlock, some outBlock =>
            if i < oc then
              FileDecoder.CopyToNthElement fuel outBuffer (i + K - oc) n
                (if index < K then inBlock else outBlock) 1 K
            else
              FileDecoder.CopyToNthElement fuel outBuffer (i - oc) n
                (if index < K then inBlock else outBlock) 0 K
          | _, _, _ => .error .outOfBounds)
        buf with
      | error e => rw [hprev] at hrun; cases hrun
      | ok b =>
        rw [hprev] at hrun
        obtain ⟨acc, haccrun, hb, hbounds⟩ := ih b hprev
        have hblen : b.length = buf.length := by rw [hb]; exact foldl_set_length _ _ _ _
        simp only [List.foldlM_cons, List.foldlM_nil] at hrun
        cases hI : indices[k]? with
        | none => rw [hI] at hrun; cases hrun
        | some index =>
          cases hP : inPtrs[k]? with
          | none => rw [hI, hP] at hrun; cases hrun
          | some inBlock =>
            cases hO : outPtrs[k]? with
            | none => rw [hI, hP, hO] at hrun; cases hrun
            | some outBlock =>
              rw [hI, hP, hO] at hrun
              have hD : FileDecoder.Read.decoded K indices inPtrs outPtrs k
                  = if index < K then inBlock else outBlock := by
                unfold FileDecoder.Read.decoded
                simp only [List.getD_eq_getElem?_getD, hI, hP, hO, Option.getD_some]
              have hX : ∀ X : Except Failure (List Nat),
                  (X >>= pure) = Except.ok b1 → X = Except.ok b1 := by
                intro X hX
                cases X with
                | error e => cases hX
                | ok v => exact hX
              have hrun2 := hX
                (if k < oc then
                  FileDecoder.CopyToNthElement fuel b (k + K - oc) n
                    (if index < K then inBlock else outBlock) 1 K
                else
                  FileDecoder.CopyToNthElement fuel b (k - oc) n
                    (if index < K then inBlock else outBlock) 0 K) hrun
              rw [← hD] at hrun2
              have hcopy : ∀ start inp : Nat,
                  FileDecoder.CopyToNthElement fuel b start n
                    (FileDecoder.Read.decoded K indices inPtrs outPtrs k) inp K = .ok b1 →
                  ∃ column, FileDecoder.CopyToNthElement.accesses fuel start n inp K
                      = .ok column ∧
                    b1 = (acc ++ column.map (fun (a : Nat × Nat) => (k, a.1, a.2))).foldl
                      (fun b a => b.set a.2.2
                        ((FileDecoder.Read.decoded K indices inPtrs outPtrs a.1).getD a.2.1 0))
                      buf ∧
                    ∀ a ∈ acc ++ column.map (fun (a : Nat × Nat) => (k, a.1, a.2)),
                      a.2.1 < (FileDecoder.Read.decoded K indices inPtrs outPtrs a.1).length ∧
                        a.2.2 < buf.length := by
                intro start inp hc
                obtain ⟨column, hcol, hb1, hcb⟩ := FileDecoder.CopyToNthElement_accesses
                  (FileDecoder.Read.decoded K indices inPtrs outPtrs k) n K fuel b start inp b1 hc
                refine ⟨column, hcol, ?_, ?_⟩
                · rw [List.foldl_append, ← hb, List.foldl_map, hb1]
                · intro a ha
                  rcases List.mem_append.mp ha with ha | ha
                  · exact hbounds a ha
                  · obtain ⟨c, hc2, rfl⟩ := List.mem_map.mp ha
                    have := hcb c hc2
                    exact ⟨this.1, by rw [← hblen]; exact this.2⟩
              by_cases hko : k < oc
              · rw [if_pos hko] at hrun2
                obtain ⟨column, hcol, hb1, hcb⟩ := hcopy _ _ hrun2
                refine ⟨_, ?_, hb1, hcb⟩
                rw [List.range_succ, List.foldlM_append, haccrun]
                simp only [List.foldlM_cons, List.foldlM_nil]
                show (match (if k < oc then
                        FileDecoder.CopyToNthElement.accesses fuel (k + K - oc) n 1 K
                      else
                        FileDecoder.CopyToNthElement.accesses fuel (k - oc) n 0 K) with
                    | .error e => (.error e : Except Failure (List (Nat × Nat × Nat)))
                    | .ok column =>
                      .ok (acc ++ column.map (fun (a : Nat × Nat) => (k, a.1, a.2))))
                    >>= pure = _
                rw [if_pos hko, hcol]
                rfl
              · rw [if_neg hko] at hrun2
                obtain ⟨column, hcol, hb1, hcb⟩ := hcopy _ _ hrun2
                refine ⟨_, ?_, hb1, hcb⟩
                rw [List.range_succ, List.foldlM_append, haccrun]
                simp only [List.foldlM_cons, List.foldlM_nil]
                show (match (if k < oc then
                        FileDecoder.CopyToNthElement.accesses fuel (k + K - oc) n 1 K
                      else
                        FileDecoder.CopyToNthElement.accesses fuel (k - oc) n 0 K) with
                    | .error e => (.error e : Except Failure (List (Nat × Nat × Nat)))
                    | .ok column =>
                      .ok (acc ++ column.map (fun (a : Nat × Nat) => (k, a.1, a.2))))
                    >>= pure = _
                rw [if_neg hko, hcol]
                rfl
  exact key K buf1 h

/-- C16 (the interleave stays in bounds and covers the output once): for K ≥ 1 and
`minBytesRead ≥ 1`, with `n = min(size, minBytesRead · K − offset mod K, Size() − offset)`,
the interleave loop of `FileDecoder::Read` ends within `size + 1` passes per column; every
access reads column `i < K` at a position below `minBytesRead` and writes the caller's
buffer at a position below `n`; and the positions written, in order, are a permutation of
`0, …, n − 1`, so each of them is written exactly once. -/
theorem FileDecoder.Read.interleave_in_bounds (codec : MetadataCodec) (d : FileDecoder)
    (fuel K size minBytesRead offset : Nat) (hK : 1 ≤ K) (hm : 1 ≤ minBytesRead)
    (hfuel : size < fuel) :
    ∃ acc,
      FileDecoder.Read.interleaveAccesses fuel K (offset % K)
        (min (min size (minBytesRead * K - offset % K))
          (d.Size codec - (offset : Int)).toNat) = .ok acc ∧
      (∀ a ∈ acc, a.1 < K ∧ a.2.1 < minBytesRead ∧
        a.2.2 < min (min size (minBytesRead * K - offset % K))
          (d.Size codec - (offset : Int)).toNat) ∧
      (acc.map (fun a => a.2.2)).Perm
        (List.range (min (min size (minBytesRead * K - offset % K))
          (d.Size codec - (offset : Int)).toNat)) := by
  have hoc : offset % K < K := Nat.mod_lt _ (by omega)
  generalize hn : min (min size (minBytesRead * K - offset % K))
    (d.Size codec - (offset : Int)).toNat = n
  have hn1 : n ≤ size := by rw [← hn]; exact le_trans (min_le_left _ _) (min_le_left _ _)
  have hn2 : n ≤ minBytesRead * K - offset % K := by
    rw [← hn]; exact le_trans (min_le_left _ _) (min_le_right _ _)
  have hmK : K ≤ minBytesRead * K := Nat.le_mul_of_pos_left K (by omega)
  obtain ⟨acc, hrun, hnd, hmem, hacc⟩ :=
    FileDecoder.Read.interleaveAccesses_spec fuel K (offset % K) n hoc (by omega)
  refine ⟨acc, hrun, ?_, ?_⟩
  · intro a ha
    obtain ⟨h1, h2⟩ := hacc a ha
    have hq : a.2.2 < n := (hmem a.2.2).mp (List.mem_map_of_mem (fun a => a.2.2) ha)
    refine ⟨by rw [h1]; exact Nat.mod_lt _ (by omega), ?_, hq⟩
    rw [h2]
    exact Nat.div_lt_of_lt_mul (by have := Nat.mul_comm minBytesRead K; omega)
  · rw [List.perm_ext_iff_of_nodup hnd (List.nodup_range n)]
    intro q
    rw [hmem q, List.mem_range]

/-- C16 on `Read(out, 2, 3)` for shares 0 and 1 of `"abcde"`: K = 2, `minBytesRead = 2`,
`n = 2`. -/
theorem FileDecoder.Read.interleave_in_bounds_witness :
    ∃ acc,
      FileDecoder.Read.interleaveAccesses 3 2 (3 % 2)
        (min (min 2 (2 * 2 - 3 % 2)) (decoder01.Size codec3 - ((3 : Nat) : Int)).toNat)
          = .ok acc ∧
      (∀ a ∈ acc, a.1 < 2 ∧ a.2.1 < 2 ∧
        a.2.2 < min (min 2 (2 * 2 - 3 % 2))
          (decoder01.Size codec3 - ((3 : Nat) : Int)).toNat) ∧
      (acc.map (fun a => a.2.2)).Perm
        (List.range (min (min 2 (2 * 2 - 3 % 2))
          (decoder01.Size codec3 - ((3 : Nat) : Int)).toNat)) :=
  FileDecoder.Read.interleave_in_bounds codec3 decoder01 3 2 2 2 3 (by decide) (by decide)
    (by decide)

end ZFecFS
